import Mathlib

/-!
Verification development for the acorn-globals free-variable analyzer
(src/index.js).  The analyzer takes a parsed JavaScript AST, builds a
binding table ("locals") for every scope-introducing node in a first
ancestor walk, classifies every identifier / `this` reference as bound or
global in a second ancestor walk, and returns the unbound references
grouped by name.

Modelling conventions:
* AST nodes form the inductive type `Node`, covering the syntactic kinds
  the analyzer dispatches on.  Absent child slots (a JavaScript `null`
  child, e.g. a missing catch handler or a sparse array-pattern element)
  are the explicit constructor `Node.hole`.
* Node identity is positional: a node is addressed by its root-to-node
  `Path` (list of child indices).  The in-place mutations of the source
  are modelled as path-keyed side tables: the `locals` tables attached by
  the build pass become one `LocalsMap` (a set of (scope path, name)
  pairs), and the `node.parents = parents.slice()` assignments of the
  classification pass become a `Writes` association list.
* acorn-walk's ancestor walk passes each visitor the array of ancestors
  *including the visited node itself* as its last element; the walks below
  reproduce that by extending the chain with `(path, node)` before
  dispatching.
* A thrown JavaScript exception (TypeError on a null pattern, unrecognized
  pattern kind, missing target scope) is modelled by `Option`: `none`
  means the analysis aborts with an error.
-/

namespace AcornGlobals

/-- Kind tag of a variable declaration: the source distinguishes only
`node.kind === 'var'` from everything else (`let`, `const`). -/
inductive DeclKind : Type where
  | kvar
  | klet
  | kconst
deriving DecidableEq

/-- Shallow embedding of the ESTree node shapes the analyzer handles.
Functions and classes store their optional name directly as a string
(the walker visits a function's `id` only as a pattern that is always
bound by the function's own binding table, so it never produces a
global).  `hole` stands for an absent (JavaScript `null`) child. -/
inductive Node : Type where
  | program (body : List Node)
  | functionDeclaration (id : Option String) (params : List Node) (body : Node)
  | functionExpression (id : Option String) (params : List Node) (body : Node)
  | arrowFunctionExpression (params : List Node) (body : Node)
  | blockStatement (body : List Node)
  | variableDeclaration (kind : DeclKind) (declarations : List Node)
  | variableDeclarator (id : Node) (init : Node)
  | classDeclaration (id : Option String)
  | classExpression (id : Option String)
  | tryStatement (block : Node) (handler : Node) (finalizer : Node)
  | catchClause (param : Node) (body : Node)
  | identifier (name : String)
  | thisExpression
  | objectPattern (props : List Node)
  | property (value : Node)
  | arrayPattern (elems : List Node)
  | restElement (argument : Node)
  | assignmentPattern (left : Node) (right : Node)
  | expressionStatement (expression : Node)
  | hole

/-- Positional address of a node in the tree: the list of child indices
from the root. -/
abbrev Path := List Nat

/-- All binding tables of the tree, merged into one set of
(scope path, declared name) pairs.  `(p, n) ∈ m` means the node at path
`p` has a `locals` table containing `n`. -/
abbrev LocalsMap := List (Path × String)

/-- isScope of src/index.js line 7: function-like scopes. -/
def isScope (node : Node) : Bool :=
  match node with
  | .functionExpression _ _ _ => true
  | .functionDeclaration _ _ _ => true
  | .arrowFunctionExpression _ _ => true
  | .program _ => true
  | _ => false

/-- isBlockScope of src/index.js line 11: block statements plus all
function-like scopes. -/
def isBlockScope (node : Node) : Bool :=
  match node with
  | .blockStatement _ => true
  | _ => isScope node

/-- declaresArguments of src/index.js line 15. -/
def declaresArguments (node : Node) : Bool :=
  match node with
  | .functionExpression _ _ _ => true
  | .functionDeclaration _ _ _ => true
  | _ => false

/-- declaresThis of src/index.js line 19. -/
def declaresThis (node : Node) : Bool :=
  match node with
  | .functionExpression _ _ _ => true
  | .functionDeclaration _ _ _ => true
  | _ => false

/-- One assignment `locals[name] = true` on the table of the scope at
path `p`.  JavaScript object assignment is idempotent, so an already
present pair leaves the map unchanged. -/
def declareName (p : Path) (name : String) (st : LocalsMap) : LocalsMap :=
  if (p, name) ∈ st then st else (p, name) :: st

mutual

/-- declarePattern of src/index.js lines 87-112: declares every name of a
binding pattern into the scope at path `p`.  The default branch of the
source throws on an unrecognized pattern kind; that (and the TypeError on
a null pattern, i.e. `hole`) is `none`. -/
def declarePattern (node : Node) (p : Path) (st : LocalsMap) : Option LocalsMap :=
  match node with
  | .identifier name => some (declareName p name st)
  | .objectPattern props => declarePatternProps props p st
  | .arrayPattern elems => declarePatternElems elems p st
  | .restElement arg => declarePattern arg p st
  | .assignmentPattern left _ => declarePattern left p st
  | _ => none

/-- The ObjectPattern branch of declarePattern: for each property the
source recurses on `node.value || node.argument`; a property node that is
neither a Property nor a RestElement leaves both undefined and the
recursive call throws. -/
def declarePatternProps (props : List Node) (p : Path) (st : LocalsMap) : Option LocalsMap :=
  match props with
  | [] => some st
  | prop :: rest =>
    match prop with
    | .property v =>
      match declarePattern v p st with
      | none => none
      | some st1 => declarePatternProps rest p st1
    | .restElement a =>
      match declarePattern a p st with
      | none => none
      | some st1 => declarePatternProps rest p st1
    | _ => none

/-- The ArrayPattern branch of declarePattern: absent elements (`hole`,
the source's `if (node)` guard) are skipped. -/
def declarePatternElems (elems : List Node) (p : Path) (st : LocalsMap) : Option LocalsMap :=
  match elems with
  | [] => some st
  | .hole :: rest => declarePatternElems rest p st
  | e :: rest =>
    match declarePattern e p st with
    | none => none
    | some st1 => declarePatternElems rest p st1

end

/-- The `node.params.forEach(... declarePattern(node, fn))` loop of
declareFunction (src/index.js lines 70-72). -/
def declareParams (params : List Node) (p : Path) (st : LocalsMap) : Option LocalsMap :=
  match params with
  | [] => some st
  | q :: rest =>
    match declarePattern q p st with
    | none => none
    | some st1 => declareParams rest p st1

/-- declareFunction of src/index.js lines 66-77: declares the parameters,
and then the function's own name if present, into the function's own
scope (the node at `path`). -/
def declareFunction (node : Node) (path : Path) (st : LocalsMap) : Option LocalsMap :=
  match node with
  | .functionDeclaration id params _ =>
    match declareParams params path st with
    | none => none
    | some st1 =>
      match id with
      | some n => some (declareName path n st1)
      | none => some st1
  | .functionExpression id params _ =>
    match declareParams params path st with
    | none => none
    | some st1 =>
      match id with
      | some n => some (declareName path n st1)
      | none => some st1
  | .arrowFunctionExpression params _ => declareParams params path st
  | _ => some st

/-- declareClass of src/index.js lines 79-85: a class declares its own
name (if present) into its own scope. -/
def declareClass (node : Node) (path : Path) (st : LocalsMap) : LocalsMap :=
  match node with
  | .classDeclaration (some n) => declareName path n st
  | .classExpression (some n) => declareName path n st
  | _ => st

/-- The backwards `for (let i = parents.length - 1; ...)` search the
declaration handlers use: the last element of the ancestor array whose
node satisfies `pred`. -/
def findLastScope (pred : Node → Bool) (parents : List (Path × Node)) :
    Option (Path × Node) :=
  match parents with
  | [] => none
  | x :: rest =>
    match findLastScope pred rest with
    | some r => some r
    | none => if pred x.2 then some x else none

/-- The `node.declarations.forEach(...)` loop of the VariableDeclaration
handler: each declaration must be a declarator, whose `id` pattern is
declared into the scope at path `p` (a non-declarator leaves
`declaration.id` undefined and the source throws). -/
def declareDeclarators (decls : List Node) (p : Path) (st : LocalsMap) : Option LocalsMap :=
  match decls with
  | [] => some st
  | .variableDeclarator did _ :: rest =>
    match declarePattern did p st with
    | none => none
    | some st1 => declareDeclarators rest p st1
  | _ :: _ => none

/-- The scope test line 124 applies while searching for a variable
declaration's target scope: `node.kind === 'var' ? isScope(parents[i]) :
isBlockScope(parents[i])`. -/
def scopePredOf (kind : DeclKind) (a : Node) : Bool :=
  if kind = DeclKind.kvar then isScope a else isBlockScope a

/-- VariableDeclaration handler of src/index.js lines 120-133: search the
ancestor array (which includes the declaration itself last) backwards for
the nearest function-like scope (`var`) or block scope (`let`/`const`)
and declare every declarator pattern into it.  A missing target scope
makes the source fault on `parent.locals` (`none`). -/
def variableDeclarationHandler (node : Node) (parents : List (Path × Node))
    (st : LocalsMap) : Option LocalsMap :=
  match node with
  | .variableDeclaration kind decls =>
    match findLastScope (scopePredOf kind) parents with
    | none => none
    | some (p, _) => declareDeclarators decls p st
  | _ => some st

/-- FunctionDeclaration handler of src/index.js lines 134-150: the search
starts at `parents.length - 2`, skipping the declaration itself (the last
ancestor entry), so the name lands in the nearest strictly-enclosing
function-like scope; afterwards declareFunction populates the
declaration's own scope. -/
def functionDeclarationHandler (node : Node) (path : Path)
    (parents : List (Path × Node)) (st : LocalsMap) : Option LocalsMap :=
  match node with
  | .functionDeclaration id _ _ =>
    match findLastScope isScope parents.dropLast with
    | none => none
    | some (p, _) =>
      match id with
      | some n => declareFunction node path (declareName p n st)
      | none => declareFunction node path st
  | _ => some st

/-- ClassDeclaration handler of src/index.js lines 152-168: like the
function case but targeting the nearest strictly-enclosing block scope,
followed by declareClass on the declaration's own scope. -/
def classDeclarationHandler (node : Node) (path : Path)
    (parents : List (Path × Node)) (st : LocalsMap) : Option LocalsMap :=
  match node with
  | .classDeclaration id =>
    match findLastScope isBlockScope parents.dropLast with
    | none => none
    | some (p, _) =>
      match id with
      | some n => some (declareClass node path (declareName p n st))
      | none => some (declareClass node path st)
  | _ => some st

/-- TryStatement handler of src/index.js lines 170-178: nothing happens
without a handler; otherwise the handler's param pattern is declared into
the catch clause's own table (the catch clause is child 1 of the try).
The source passes `node.handler.param` to declarePattern without a null
check, so a catch clause with no bound parameter faults (declarePattern
of `hole` is `none`). -/
def tryStatementHandler (node : Node) (path : Path) (st : LocalsMap) :
    Option LocalsMap :=
  match node with
  | .tryStatement _ handler _ =>
    match handler with
    | .hole => some st
    | .catchClause param _ => declarePattern param (path ++ [1]) st
    | _ => none
  | _ => some st

mutual

/-- First ancestor walk of src/index.js lines 119-182 (the scope-build
pass).  Children are visited first, then the node's own visitors, in
acorn-walk order; aggregate visitors (`Function`, `Class`) fire before
the declaration-specific ones.  The ancestor array passed on is the
incoming chain extended with the current node. -/
def buildWalk (node : Node) (path : Path) (parents : List (Path × Node))
    (st : LocalsMap) : Option LocalsMap :=
  let par := parents ++ [(path, node)]
  match node with
  | .program body => buildWalkList body path 0 par st
  | .functionDeclaration _ params fbody =>
    match buildWalkList params path 0 par st with
    | none => none
    | some st1 =>
      match buildWalk fbody (path ++ [params.length]) par st1 with
      | none => none
      | some st2 =>
        match declareFunction node path st2 with
        | none => none
        | some st3 => functionDeclarationHandler node path par st3
  | .functionExpression _ params fbody =>
    match buildWalkList params path 0 par st with
    | none => none
    | some st1 =>
      match buildWalk fbody (path ++ [params.length]) par st1 with
      | none => none
      | some st2 => declareFunction node path st2
  | .arrowFunctionExpression params fbody =>
    match buildWalkList params path 0 par st with
    | none => none
    | some st1 =>
      match buildWalk fbody (path ++ [params.length]) par st1 with
      | none => none
      | some st2 => declareFunction node path st2
  | .blockStatement body => buildWalkList body path 0 par st
  | .variableDeclaration _ decls =>
    match buildWalkList decls path 0 par st with
    | none => none
    | some st1 => variableDeclarationHandler node par st1
  | .variableDeclarator did dinit =>
    match buildWalk did (path ++ [0]) par st with
    | none => none
    | some st1 => buildWalk dinit (path ++ [1]) par st1
  | .classDeclaration _ => classDeclarationHandler node path par (declareClass node path st)
  | .classExpression _ => some (declareClass node path st)
  | .tryStatement blk handler fin =>
    match buildWalk blk (path ++ [0]) par st with
    | none => none
    | some st1 =>
      match buildWalk handler (path ++ [1]) par st1 with
      | none => none
      | some st2 =>
        match buildWalk fin (path ++ [2]) par st2 with
        | none => none
        | some st3 => tryStatementHandler node path st3
  | .catchClause param body =>
    match buildWalk param (path ++ [0]) par st with
    | none => none
    | some st1 => buildWalk body (path ++ [1]) par st1
  | .identifier _ => some st
  | .thisExpression => some st
  | .objectPattern props => buildWalkList props path 0 par st
  | .property v => buildWalk v (path ++ [0]) par st
  | .arrayPattern elems => buildWalkList elems path 0 par st
  | .restElement arg => buildWalk arg (path ++ [0]) par st
  | .assignmentPattern l r =>
    match buildWalk l (path ++ [0]) par st with
    | none => none
    | some st1 => buildWalk r (path ++ [1]) par st1
  | .expressionStatement e => buildWalk e (path ++ [0]) par st
  | .hole => some st

/-- Sequential walk of a child list, numbering children from `i`. -/
def buildWalkList (nodes : List Node) (base : Path) (i : Nat)
    (parents : List (Path × Node)) (st : LocalsMap) : Option LocalsMap :=
  match nodes with
  | [] => some st
  | x :: rest =>
    match buildWalk x (base ++ [i]) parents st with
    | none => none
    | some st1 => buildWalkList rest base (i + 1) parents st1

end

/-- A recorded global reference: the node, its path, and the ancestor
array (`parents.slice()`) stored on it when it was recorded. -/
structure GRef : Type where
  path : Path
  node : Node
  parents : List (Path × Node)

/-- The `node.parents = parents.slice()` assignments performed during the
classification pass, as a path-keyed association list. -/
abbrev Writes := List (Path × List (Path × Node))

/-- Assignment into the `Writes` table: overwrite the entry for `p` in
place, or append a fresh one. -/
def setAssoc (p : Path) (v : List (Path × Node)) (w : Writes) : Writes :=
  match w with
  | [] => [(p, v)]
  | (q, u) :: rest => if q = p then (q, v) :: rest else (q, u) :: setAssoc p v rest

/-- The ancestor loop of the identifier visitor (src/index.js lines
191-199), scanning the ancestor array from the root outward: `arguments`
inside a function declaration/expression is bound, as is a name found in
an ancestor's binding table; a reference surviving the whole loop is
recorded carrying `full`, the complete ancestor array. -/
def identifierLoop (path : Path) (name : String) (full : List (Path × Node))
    (parents : List (Path × Node)) (locals : LocalsMap) : Option GRef :=
  match parents with
  | [] => some ⟨path, .identifier name, full⟩
  | (q, a) :: rest =>
    if name = "arguments" ∧ declaresArguments a then none
    else if (q, name) ∈ locals then none
    else identifierLoop path name full rest locals

/-- identifier visitor of src/index.js lines 184-203 (registered for both
Identifier and VariablePattern): skip `undefined` entirely, then run the
ancestor loop; a recorded reference stores the full ancestor array it was
called with. -/
def identifier (path : Path) (name : String) (parents : List (Path × Node))
    (locals : LocalsMap) : Option GRef :=
  if name = "undefined" then none
  else identifierLoop path name parents parents locals

/-- ThisExpression visitor of src/index.js lines 208-217: bound as soon
as any ancestor is a function declaration/expression, otherwise recorded
with the full ancestor array. -/
def thisExpressionHandler (path : Path) (parents : List (Path × Node)) :
    Option GRef :=
  if parents.any (fun x => declaresThis x.2) then none
  else some ⟨path, .thisExpression, parents⟩

mutual

/-- Second ancestor walk of src/index.js lines 205-218 (the
classification pass).  It reads the binding tables built by `buildWalk`
(never modifying them), returns the recorded references in discovery
order, and threads the `node.parents = parents.slice()` writes. -/
def classifyWalk (node : Node) (path : Path) (parents : List (Path × Node))
    (locals : LocalsMap) (w : Writes) : Writes × List GRef :=
  let par := parents ++ [(path, node)]
  match node with
  | .program body => classifyWalkList body path 0 par locals w
  | .functionDeclaration _ params fbody =>
    let r1 := classifyWalkList params path 0 par locals w
    let r2 := classifyWalk fbody (path ++ [params.length]) par locals r1.1
    (r2.1, r1.2 ++ r2.2)
  | .functionExpression _ params fbody =>
    let r1 := classifyWalkList params path 0 par locals w
    let r2 := classifyWalk fbody (path ++ [params.length]) par locals r1.1
    (r2.1, r1.2 ++ r2.2)
  | .arrowFunctionExpression params fbody =>
    let r1 := classifyWalkList params path 0 par locals w
    let r2 := classifyWalk fbody (path ++ [params.length]) par locals r1.1
    (r2.1, r1.2 ++ r2.2)
  | .blockStatement body => classifyWalkList body path 0 par locals w
  | .variableDeclaration _ decls => classifyWalkList decls path 0 par locals w
  | .variableDeclarator did dinit =>
    let r1 := classifyWalk did (path ++ [0]) par locals w
    let r2 := classifyWalk dinit (path ++ [1]) par locals r1.1
    (r2.1, r1.2 ++ r2.2)
  | .classDeclaration _ => (w, [])
  | .classExpression _ => (w, [])
  | .tryStatement blk handler fin =>
    let r1 := classifyWalk blk (path ++ [0]) par locals w
    let r2 := classifyWalk handler (path ++ [1]) par locals r1.1
    let r3 := classifyWalk fin (path ++ [2]) par locals r2.1
    (r3.1, r1.2 ++ r2.2 ++ r3.2)
  | .catchClause param body =>
    let r1 := classifyWalk param (path ++ [0]) par locals w
    let r2 := classifyWalk body (path ++ [1]) par locals r1.1
    (r2.1, r1.2 ++ r2.2)
  | .identifier name =>
    match identifier path name par locals with
    | some r => (setAssoc r.path r.parents w, [r])
    | none => (w, [])
  | .thisExpression =>
    match thisExpressionHandler path par with
    | some r => (setAssoc r.path r.parents w, [r])
    | none => (w, [])
  | .objectPattern props => classifyWalkList props path 0 par locals w
  | .property v => classifyWalk v (path ++ [0]) par locals w
  | .arrayPattern elems => classifyWalkList elems path 0 par locals w
  | .restElement arg => classifyWalk arg (path ++ [0]) par locals w
  | .assignmentPattern l r =>
    let r1 := classifyWalk l (path ++ [0]) par locals w
    let r2 := classifyWalk r (path ++ [1]) par locals r1.1
    (r2.1, r1.2 ++ r2.2)
  | .expressionStatement e => classifyWalk e (path ++ [0]) par locals w
  | .hole => (w, [])

/-- Sequential classification of a child list. -/
def classifyWalkList (nodes : List Node) (base : Path) (i : Nat)
    (parents : List (Path × Node)) (locals : LocalsMap) (w : Writes) :
    Writes × List GRef :=
  match nodes with
  | [] => (w, [])
  | x :: rest =>
    let r1 := classifyWalk x (base ++ [i]) parents locals w
    let r2 := classifyWalkList rest base (i + 1) parents locals r1.1
    (r2.1, r1.2 ++ r2.2)

end

/-- Grouping key of a recorded node (src/index.js line 223):
`node.type === 'ThisExpression' ? 'this' : node.name`.  A node of any
other kind never reaches the globals list; there `node.name` would be
undefined, which JavaScript coerces to the property key "undefined". -/
def groupName (n : Node) : String :=
  match n with
  | .thisExpression => "this"
  | .identifier nm => nm
  | _ => "undefined"

/-- Append a reference to its name's group, creating the group at the end
on first appearance (JavaScript object insertion order). -/
def addGrouped (nm : String) (r : GRef) (acc : List (String × List GRef)) :
    List (String × List GRef) :=
  match acc with
  | [] => [(nm, [r])]
  | (k, rs) :: rest =>
    if k = nm then (k, rs ++ [r]) :: rest else (k, rs) :: addGrouped nm r rest

/-- The `globals.forEach` grouping loop of src/index.js lines 222-227. -/
def groupRefs (refs : List GRef) : List (String × List GRef) :=
  refs.foldl (fun acc r => addGrouped (groupName r.node) r acc) []

/-- Lookup in the grouped association list (empty for a missing key). -/
def lookupGrouped (g : List (String × List GRef)) (nm : String) : List GRef :=
  match g with
  | [] => []
  | (k, rs) :: rest => if k = nm then rs else lookupGrouped rest nm

/-- One output group: a name with its references in discovery order. -/
structure Group : Type where
  name : String
  nodes : List GRef

/-- Lexicographic comparison of character lists by code point (for the
identifier names and the reserved name "this" that can appear as group
keys, this coincides with the UTF-16 code-unit comparison JavaScript's
default sort comparator uses). -/
def charListLe (as bs : List Char) : Bool :=
  match as, bs with
  | [], _ => true
  | _ :: _, [] => false
  | c :: cs, d :: ds =>
    if c.toNat < d.toNat then true
    else if d.toNat < c.toNat then false
    else charListLe cs ds

/-- String comparison used to model `Array.prototype.sort()` on the key
list. -/
def strLe (a b : String) : Bool := charListLe a.data b.data

/-- Insert a name into an already sorted name list. -/
def sortedInsert (s : String) (l : List String) : List String :=
  match l with
  | [] => [s]
  | t :: rest => if strLe s t then s :: t :: rest else t :: sortedInsert s rest

/-- Sort the group keys ascending, modelling
`Object.keys(groupedGlobals).sort()`; on the duplicate-free key list any
comparison sort yields the same unique sorted permutation. -/
def sortNames (l : List String) : List String :=
  match l with
  | [] => []
  | s :: rest => sortedInsert s (sortNames rest)

/-- The return expression of src/index.js lines 231-233:
`Object.keys(groupedGlobals).sort().map(name => ({name, nodes}))`. -/
def groupGlobals (refs : List GRef) : List Group :=
  let grouped := groupRefs refs
  (sortNames (grouped.map (·.1))).map
    (fun nm => ⟨nm, lookupGrouped grouped nm⟩)

/-- Result of one analysis run: the merged binding tables the build pass
attached (`locals`), the recorded references in discovery order (`refs`),
the grouped and sorted output (`globals`), and the `node.parents`
assignments the classification pass performed (`writes`). -/
structure AnalyzeResult : Type where
  locals : LocalsMap
  refs : List GRef
  globals : List Group
  writes : Writes

/-- parseWithGlobals of src/index.js lines 51-236 for an already-parsed
AST: reject a non-Program root (TypeError), run the build pass starting
from the binding tables already attached to the tree (`st`, empty for a
fresh tree), then the classification pass and the grouping.  Prior
`node.parents` values are never read by any pass, so `writes` records the
assignments of this run. -/
def analyzeAst (ast : Node) (st : LocalsMap) : Option AnalyzeResult :=
  match ast with
  | .program _ =>
    match buildWalk ast [] [] st with
    | none => none
    | some m =>
      let r := classifyWalk ast [] [] m []
      some ⟨m, r.2, groupGlobals r.2, r.1⟩
  | _ => none

/-- reallyParse of src/index.js lines 23-49, with the external parsers as
parameters: the strict parser either yields an AST or an error message
(the `err.message` of the thrown error); the loose parser always yields
an AST.  On a strict-parse error the flag decides between rethrowing and
falling back to the loose parse while surfacing the original message. -/
def reallyParse (strictParse : String → Except String Node)
    (looseParse : String → Node) (source : String) (fallbackToLoose : Bool) :
    Except String (Node × Option String) :=
  match strictParse source with
  | .ok ast => .ok (ast, none)
  | .error msg =>
    if fallbackToLoose then .ok (looseParse source, some msg) else .error msg

mutual

/-- Names introduced by a binding pattern, in declaration order; the
specification-level reading of declarePattern. -/
def patIdents (node : Node) : List String :=
  match node with
  | .identifier name => [name]
  | .objectPattern props => patIdentsProps props
  | .arrayPattern elems => patIdentsElems elems
  | .restElement arg => patIdents arg
  | .assignmentPattern left _ => patIdents left
  | _ => []

/-- Names introduced by an object pattern's property list. -/
def patIdentsProps (props : List Node) : List String :=
  match props with
  | [] => []
  | .property v :: rest => patIdents v ++ patIdentsProps rest
  | .restElement a :: rest => patIdents a ++ patIdentsProps rest
  | _ :: rest => patIdentsProps rest

/-- Names introduced by an array pattern's element list. -/
def patIdentsElems (elems : List Node) : List String :=
  match elems with
  | [] => []
  | .hole :: rest => patIdentsElems rest
  | e :: rest => patIdents e ++ patIdentsElems rest

end

mutual

/-- Whether a node is a pattern shape declarePattern accepts without
throwing. -/
def wfPattern (node : Node) : Bool :=
  match node with
  | .identifier _ => true
  | .objectPattern props => wfPatternProps props
  | .arrayPattern elems => wfPatternElems elems
  | .restElement arg => wfPattern arg
  | .assignmentPattern left _ => wfPattern left
  | _ => false

/-- Well-formedness of an object pattern's property list. -/
def wfPatternProps (props : List Node) : Bool :=
  match props with
  | [] => true
  | .property v :: rest => wfPattern v && wfPatternProps rest
  | .restElement a :: rest => wfPattern a && wfPatternProps rest
  | _ :: _ => false

/-- Well-formedness of an array pattern's element list. -/
def wfPatternElems (elems : List Node) : Bool :=
  match elems with
  | [] => true
  | .hole :: rest => wfPatternElems rest
  | e :: rest => wfPattern e && wfPatternElems rest

end

/-- Names of a parameter list, in order. -/
def paramsIdents (params : List Node) : List String :=
  match params with
  | [] => []
  | q :: rest => patIdents q ++ paramsIdents rest

/-- Names declared by a variable declaration's declarator list. -/
def declNames (decls : List Node) : List String :=
  match decls with
  | [] => []
  | .variableDeclarator did _ :: rest => patIdents did ++ declNames rest
  | _ :: rest => declNames rest

/-- The `id` (own name) of a function node. -/
def fnId (node : Node) : Option String :=
  match node with
  | .functionDeclaration id _ _ => id
  | .functionExpression id _ _ => id
  | _ => none

/-- The parameter list of a function node. -/
def fnParams (node : Node) : List Node :=
  match node with
  | .functionDeclaration _ params _ => params
  | .functionExpression _ params _ => params
  | .arrowFunctionExpression params _ => params
  | _ => []

/-- The `id` (own name) of a class node. -/
def classId (node : Node) : Option String :=
  match node with
  | .classDeclaration id => id
  | .classExpression id => id
  | _ => none

/-- The two facts needed to re-run a build step on an already-built map:
a successful step from `st` to `st'` only grows the map, and running the
same step on any map that already contains everything in `st'` is the
identity. -/
def StepFix (f : LocalsMap → Option LocalsMap) (st st' : LocalsMap) : Prop :=
  (∀ e, e ∈ st → e ∈ st') ∧ ∀ t : LocalsMap, (∀ e, e ∈ st' → e ∈ t) → f t = some t

/-- Example program `x;` — one undeclared identifier reference. -/
def exIdent : Node := .program [.expressionStatement (.identifier "x")]

/-- Example program `try {} catch {}` — a catch clause with no bound
parameter (an optional catch binding). -/
def exCatchAll : Node :=
  .program [.tryStatement (.blockStatement []) (.catchClause .hole (.blockStatement [])) .hole]

/-- Example program `b; a; b;` — three undeclared references with
interleaved names. -/
def exSort : Node :=
  .program [.expressionStatement (.identifier "b"), .expressionStatement (.identifier "a"),
    .expressionStatement (.identifier "b")]

/-- Fallback value for reading an analysis result in closed statements. -/
def emptyResult : AnalyzeResult := ⟨[], [], [], []⟩

/-! ### Basic lemmas about single declarations -/

theorem mem_declareName_iff {p : Path} {name : String} {st : LocalsMap}
    {e : Path × String} : e ∈ declareName p name st ↔ e ∈ st ∨ e = (p, name) := by
  unfold declareName
  split
  · rename_i h
    constructor
    · exact fun he => Or.inl he
    · rintro (he | rfl)
      · exact he
      · exact h
  · simp [List.mem_cons, or_comm]

theorem mem_declareName {p : Path} {name : String} {st : LocalsMap}
    {e : Path × String} (h : e ∈ st) : e ∈ declareName p name st :=
  mem_declareName_iff.mpr (Or.inl h)

theorem self_mem_declareName (p : Path) (name : String) (st : LocalsMap) :
    (p, name) ∈ declareName p name st :=
  mem_declareName_iff.mpr (Or.inr rfl)

theorem declareName_eq_of_mem {p : Path} {name : String} {st : LocalsMap}
    (h : (p, name) ∈ st) : declareName p name st = st := by
  unfold declareName
  simp [h]

/-! ### Lemmas about the backwards ancestor-scope search -/

theorem findLastScope_eq_none_iff {pred : Node → Bool}
    {l : List (Path × Node)} :
    findLastScope pred l = none ↔ ∀ y ∈ l, pred y.2 = false := by
  induction l with
  | nil => simp [findLastScope]
  | cons a rest ih =>
    unfold findLastScope
    cases hr : findLastScope pred rest with
    | some r =>
      simp only [reduceCtorEq, false_iff, not_forall]
      have hnot := ih.not.mp (by simp [hr])
      push_neg at hnot
      obtain ⟨y, hy, hpy⟩ := hnot
      exact ⟨y, List.mem_cons_of_mem a hy, by simp [hpy]⟩
    | none =>
      by_cases hp : pred a.2 = true
      · rw [if_pos hp]
        simp only [reduceCtorEq, false_iff, not_forall]
        exact ⟨a, List.mem_cons_self a rest, by simp [hp]⟩
      · rw [if_neg hp]
        simp only [true_iff]
        intro y hy
        rcases List.mem_cons.mp hy with rfl | hy
        · exact Bool.eq_false_iff.mpr hp
        · exact ih.mp hr y hy

theorem findLastScope_eq_some_iff {pred : Node → Bool}
    {l : List (Path × Node)} {x : Path × Node} :
    findLastScope pred l = some x ↔
      ∃ l1 l2, l = l1 ++ x :: l2 ∧ pred x.2 = true ∧ ∀ y ∈ l2, pred y.2 = false := by
  induction l with
  | nil => simp [findLastScope]
  | cons a rest ih =>
    unfold findLastScope
    cases hr : findLastScope pred rest with
    | some r =>
      simp only [Option.some.injEq]
      constructor
      · rintro rfl
        obtain ⟨l1, l2, hdec, hx, hl2⟩ := ih.mp hr
        exact ⟨a :: l1, l2, by simp [hdec], hx, hl2⟩
      · rintro ⟨l1, l2, hdec, hx, hl2⟩
        cases l1 with
        | nil =>
          simp only [List.nil_append, List.cons.injEq] at hdec
          rw [findLastScope_eq_none_iff.mpr (by rw [hdec.2]; exact hl2)] at hr
          cases hr
        | cons b l1t =>
          simp only [List.cons_append, List.cons.injEq] at hdec
          obtain ⟨rfl, hdec⟩ := hdec
          have hsome := ih.mpr ⟨l1t, l2, hdec, hx, hl2⟩
          rw [hr] at hsome
          exact (Option.some.injEq _ _).mp hsome
    | none =>
      have hrest : ∀ y ∈ rest, pred y.2 = false := findLastScope_eq_none_iff.mp hr
      by_cases hp : pred a.2 = true
      · rw [if_pos hp]
        simp only [Option.some.injEq]
        constructor
        · rintro rfl
          exact ⟨[], rest, rfl, hp, hrest⟩
        · rintro ⟨l1, l2, hdec, hx, hl2⟩
          cases l1 with
          | nil =>
            simp only [List.nil_append, List.cons.injEq] at hdec
            exact hdec.1
          | cons b l1t =>
            simp only [List.cons_append, List.cons.injEq] at hdec
            obtain ⟨rfl, hdec⟩ := hdec
            have hmem : x ∈ rest := by
              rw [hdec]
              exact List.mem_append_right _ (List.mem_cons_self _ _)
            rw [hrest x hmem] at hx
            cases hx
      · rw [if_neg hp]
        simp only [reduceCtorEq, false_iff]
        rintro ⟨l1, l2, hdec, hx, hl2⟩
        cases l1 with
        | nil =>
          simp only [List.nil_append, List.cons.injEq] at hdec
          rw [hdec.1] at hp
          exact hp hx
        | cons b l1t =>
          simp only [List.cons_append, List.cons.injEq] at hdec
          obtain ⟨rfl, hdec⟩ := hdec
          have hmem : x ∈ rest := by
            rw [hdec]
            exact List.mem_append_right _ (List.mem_cons_self _ _)
          rw [hrest x hmem] at hx
          cases hx

theorem findLastScope_append_last_false {pred : Node → Bool}
    {l : List (Path × Node)} {x : Path × Node} (h : pred x.2 = false) :
    findLastScope pred (l ++ [x]) = findLastScope pred l := by
  induction l with
  | nil => simp [findLastScope, h]
  | cons a rest ih =>
    show findLastScope pred (a :: (rest ++ [x])) = _
    unfold findLastScope
    rw [ih]

theorem findLastScope_isSome_iff {pred : Node → Bool} {l : List (Path × Node)} :
    (findLastScope pred l).isSome = true ↔ ∃ y ∈ l, pred y.2 = true := by
  cases hr : findLastScope pred l with
  | none =>
    have hall := findLastScope_eq_none_iff.mp hr
    simp only [Option.isSome_none, Bool.false_eq_true, false_iff, not_exists, not_and]
    intro y hy
    simp [hall y hy]
  | some x =>
    simp only [Option.isSome_some, true_iff]
    obtain ⟨l1, l2, hdec, hx, _⟩ := findLastScope_eq_some_iff.mp hr
    exact ⟨x, by rw [hdec]; exact List.mem_append_right _ (List.mem_cons_self _ _), hx⟩

/-! ### Effect of the pattern declarator: exactly the pattern's names are
added, at the target scope's path -/

mutual

theorem declarePattern_mem : ∀ (node : Node) (p : Path) (st st' : LocalsMap),
    declarePattern node p st = some st' →
    ∀ q n, ((q, n) ∈ st' ↔ (q, n) ∈ st ∨ (q = p ∧ n ∈ patIdents node))
  | .identifier name, p, st, st', h => by
    simp only [declarePattern, Option.some.injEq] at h
    subst h
    intro q n
    rw [mem_declareName_iff]
    simp [patIdents, Prod.ext_iff]
  | .objectPattern props, p, st, st', h => by
    intro q n
    rw [declarePatternProps_mem props p st st' (by simpa [declarePattern] using h) q n]
    simp [patIdents]
  | .arrayPattern elems, p, st, st', h => by
    intro q n
    rw [declarePatternElems_mem elems p st st' (by simpa [declarePattern] using h) q n]
    simp [patIdents]
  | .restElement arg, p, st, st', h => by
    intro q n
    rw [declarePattern_mem arg p st st' (by simpa [declarePattern] using h) q n]
    simp [patIdents]
  | .assignmentPattern left r, p, st, st', h => by
    intro q n
    rw [declarePattern_mem left p st st' (by simpa [declarePattern] using h) q n]
    simp [patIdents]
  | .program _, _, _, _, h => nomatch h
  | .functionDeclaration _ _ _, _, _, _, h => nomatch h
  | .functionExpression _ _ _, _, _, _, h => nomatch h
  | .arrowFunctionExpression _ _, _, _, _, h => nomatch h
  | .blockStatement _, _, _, _, h => nomatch h
  | .variableDeclaration _ _, _, _, _, h => nomatch h
  | .variableDeclarator _ _, _, _, _, h => nomatch h
  | .classDeclaration _, _, _, _, h => nomatch h
  | .classExpression _, _, _, _, h => nomatch h
  | .tryStatement _ _ _, _, _, _, h => nomatch h
  | .catchClause _ _, _, _, _, h => nomatch h
  | .thisExpression, _, _, _, h => nomatch h
  | .property _, _, _, _, h => nomatch h
  | .expressionStatement _, _, _, _, h => nomatch h
  | .hole, _, _, _, h => nomatch h
termination_by node _ _ _ _ => (sizeOf node, 0)

theorem declarePatternProps_mem : ∀ (props : List Node) (p : Path) (st st' : LocalsMap),
    declarePatternProps props p st = some st' →
    ∀ q n, ((q, n) ∈ st' ↔ (q, n) ∈ st ∨ (q = p ∧ n ∈ patIdentsProps props))
  | [], p, st, st', h => by
    simp only [declarePatternProps, Option.some.injEq] at h
    subst h
    simp [patIdentsProps]
  | .property v :: rest, p, st, st', h => by
    simp only [declarePatternProps] at h
    cases h1 : declarePattern v p st with
    | none => rw [h1] at h; cases h
    | some st1 =>
      rw [h1] at h
      intro q n
      rw [declarePatternProps_mem rest p st1 st' h q n,
        declarePattern_mem v p st st1 h1 q n]
      simp only [patIdentsProps, List.mem_append]
      tauto
  | .restElement a :: rest, p, st, st', h => by
    simp only [declarePatternProps] at h
    cases h1 : declarePattern a p st with
    | none => rw [h1] at h; cases h
    | some st1 =>
      rw [h1] at h
      intro q n
      rw [declarePatternProps_mem rest p st1 st' h q n,
        declarePattern_mem a p st st1 h1 q n]
      simp only [patIdentsProps, List.mem_append]
      tauto
  | .program _ :: _, _, _, _, h => nomatch h
  | .functionDeclaration _ _ _ :: _, _, _, _, h => nomatch h
  | .functionExpression _ _ _ :: _, _, _, _, h => nomatch h
  | .arrowFunctionExpression _ _ :: _, _, _, _, h => nomatch h
  | .blockStatement _ :: _, _, _, _, h => nomatch h
  | .variableDeclaration _ _ :: _, _, _, _, h => nomatch h
  | .variableDeclarator _ _ :: _, _, _, _, h => nomatch h
  | .classDeclaration _ :: _, _, _, _, h => nomatch h
  | .classExpression _ :: _, _, _, _, h => nomatch h
  | .tryStatement _ _ _ :: _, _, _, _, h => nomatch h
  | .catchClause _ _ :: _, _, _, _, h => nomatch h
  | .identifier _ :: _, _, _, _, h => nomatch h
  | .thisExpression :: _, _, _, _, h => nomatch h
  | .objectPattern _ :: _, _, _, _, h => nomatch h
  | .arrayPattern _ :: _, _, _, _, h => nomatch h
  | .hole :: _, _, _, _, h => nomatch h
  | .expressionStatement _ :: _, _, _, _, h => nomatch h
termination_by props _ _ _ _ => (sizeOf props, 0)

theorem declarePatternElems_mem : ∀ (elems : List Node) (p : Path) (st st' : LocalsMap),
    declarePatternElems elems p st = some st' →
    ∀ q n, ((q, n) ∈ st' ↔ (q, n) ∈ st ∨ (q = p ∧ n ∈ patIdentsElems elems))
  | [], p, st, st', h => by
    simp only [declarePatternElems, Option.some.injEq] at h
    subst h
    simp [patIdentsElems]
  | .hole :: rest, p, st, st', h => by
    intro q n
    rw [declarePatternElems_mem rest p st st' (by simpa [declarePatternElems] using h) q n]
    simp [patIdentsElems]
  | .identifier nm :: rest, p, st, st', h =>
    declarePatternElems_mem_cons (.identifier nm) rest p st st' (by exact h) (by intro h'; cases h')
  | .objectPattern props :: rest, p, st, st', h =>
    declarePatternElems_mem_cons (.objectPattern props) rest p st st' (by exact h) (by intro h'; cases h')
  | .arrayPattern es :: rest, p, st, st', h =>
    declarePatternElems_mem_cons (.arrayPattern es) rest p st st' (by exact h) (by intro h'; cases h')
  | .restElement a :: rest, p, st, st', h =>
    declarePatternElems_mem_cons (.restElement a) rest p st st' (by exact h) (by intro h'; cases h')
  | .assignmentPattern l r :: rest, p, st, st', h =>
    declarePatternElems_mem_cons (.assignmentPattern l r) rest p st st' (by exact h) (by intro h'; cases h')
  | .program b :: rest, p, st, st', h =>
    declarePatternElems_mem_cons (.program b) rest p st st' (by exact h) (by intro h'; cases h')
  | .functionDeclaration i ps b :: rest, p, st, st', h =>
    declarePatternElems_mem_cons (.functionDeclaration i ps b) rest p st st' (by exact h) (by intro h'; cases h')
  | .functionExpression i ps b :: rest, p, st, st', h =>
    declarePatternElems_mem_cons (.functionExpression i ps b) rest p st st' (by exact h) (by intro h'; cases h')
  | .arrowFunctionExpression ps b :: rest, p, st, st', h =>
    declarePatternElems_mem_cons (.arrowFunctionExpression ps b) rest p st st' (by exact h) (by intro h'; cases h')
  | .blockStatement b :: rest, p, st, st', h =>
    declarePatternElems_mem_cons (.blockStatement b) rest p st st' (by exact h) (by intro h'; cases h')
  | .variableDeclaration k d :: rest, p, st, st', h =>
    declarePatternElems_mem_cons (.variableDeclaration k d) rest p st st' (by exact h) (by intro h'; cases h')
  | .variableDeclarator i j :: rest, p, st, st', h =>
    declarePatternElems_mem_cons (.variableDeclarator i j) rest p st st' (by exact h) (by intro h'; cases h')
  | .classDeclaration i :: rest, p, st, st', h =>
    declarePatternElems_mem_cons (.classDeclaration i) rest p st st' (by exact h) (by intro h'; cases h')
  | .classExpression i :: rest, p, st, st', h =>
    declarePatternElems_mem_cons (.classExpression i) rest p st st' (by exact h) (by intro h'; cases h')
  | .tryStatement b c f :: rest, p, st, st', h =>
    declarePatternElems_mem_cons (.tryStatement b c f) rest p st st' (by exact h) (by intro h'; cases h')
  | .catchClause a b :: rest, p, st, st', h =>
    declarePatternElems_mem_cons (.catchClause a b) rest p st st' (by exact h) (by intro h'; cases h')
  | .thisExpression :: rest, p, st, st', h =>
    declarePatternElems_mem_cons .thisExpression rest p st st' (by exact h) (by intro h'; cases h')
  | .property v :: rest, p, st, st', h =>
    declarePatternElems_mem_cons (.property v) rest p st st' (by exact h) (by intro h'; cases h')
  | .expressionStatement e :: rest, p, st, st', h =>
    declarePatternElems_mem_cons (.expressionStatement e) rest p st st' (by exact h) (by intro h'; cases h')
termination_by elems _ _ _ _ => (sizeOf elems, 1)

theorem declarePatternElems_mem_cons : ∀ (e : Node) (rest : List Node) (p : Path)
    (st st' : LocalsMap),
    declarePatternElems (e :: rest) p st = some st' →
    (e = Node.hole → False) →
    ∀ q n, ((q, n) ∈ st' ↔ (q, n) ∈ st ∨ (q = p ∧ n ∈ patIdentsElems (e :: rest)))
  | e, rest, p, st, st', h, hne => by
    have hred : declarePatternElems (e :: rest) p st =
        match declarePattern e p st with
        | none => none
        | some st1 => declarePatternElems rest p st1 := by
      cases e <;> first | rfl | exact absurd rfl hne
    have hpe : patIdentsElems (e :: rest) = patIdents e ++ patIdentsElems rest := by
      cases e <;> first | rfl | exact absurd rfl hne
    rw [hred] at h
    cases h1 : declarePattern e p st with
    | none => rw [h1] at h; cases h
    | some st1 =>
      rw [h1] at h
      intro q n
      rw [declarePatternElems_mem rest p st1 st' h q n,
        declarePattern_mem e p st st1 h1 q n, hpe]
      simp only [List.mem_append]
      tauto
termination_by e rest _ _ _ _ _ => (sizeOf (e :: rest), 0)

end

theorem declareParams_mem : ∀ (params : List Node) (p : Path) (st st' : LocalsMap),
    declareParams params p st = some st' →
    ∀ q n, ((q, n) ∈ st' ↔ (q, n) ∈ st ∨ (q = p ∧ n ∈ paramsIdents params))
  | [], p, st, st', h => by
    simp only [declareParams, Option.some.injEq] at h
    subst h
    simp [paramsIdents]
  | x :: rest, p, st, st', h => by
    simp only [declareParams] at h
    cases h1 : declarePattern x p st with
    | none => rw [h1] at h; cases h
    | some st1 =>
      rw [h1] at h
      intro q n
      rw [declareParams_mem rest p st1 st' h q n, declarePattern_mem x p st st1 h1 q n]
      simp only [paramsIdents, List.mem_append]
      tauto

theorem declareDeclarators_mem : ∀ (decls : List Node) (p : Path) (st st' : LocalsMap),
    declareDeclarators decls p st = some st' →
    ∀ q n, ((q, n) ∈ st' ↔ (q, n) ∈ st ∨ (q = p ∧ n ∈ declNames decls))
  | [], p, st, st', h => by
    simp only [declareDeclarators, Option.some.injEq] at h
    subst h
    simp [declNames]
  | .variableDeclarator did dinit :: rest, p, st, st', h => by
    simp only [declareDeclarators] at h
    cases h1 : declarePattern did p st with
    | none => rw [h1] at h; cases h
    | some st1 =>
      rw [h1] at h
      intro q n
      rw [declareDeclarators_mem rest p st1 st' h q n, declarePattern_mem did p st st1 h1 q n]
      simp only [declNames, List.mem_append]
      tauto
  | .program _ :: _, _, _, _, h => nomatch h
  | .functionDeclaration _ _ _ :: _, _, _, _, h => nomatch h
  | .functionExpression _ _ _ :: _, _, _, _, h => nomatch h
  | .arrowFunctionExpression _ _ :: _, _, _, _, h => nomatch h
  | .blockStatement _ :: _, _, _, _, h => nomatch h
  | .variableDeclaration _ _ :: _, _, _, _, h => nomatch h
  | .classDeclaration _ :: _, _, _, _, h => nomatch h
  | .classExpression _ :: _, _, _, _, h => nomatch h
  | .tryStatement _ _ _ :: _, _, _, _, h => nomatch h
  | .catchClause _ _ :: _, _, _, _, h => nomatch h
  | .identifier _ :: _, _, _, _, h => nomatch h
  | .thisExpression :: _, _, _, _, h => nomatch h
  | .objectPattern _ :: _, _, _, _, h => nomatch h
  | .property _ :: _, _, _, _, h => nomatch h
  | .arrayPattern _ :: _, _, _, _, h => nomatch h
  | .restElement _ :: _, _, _, _, h => nomatch h
  | .assignmentPattern _ _ :: _, _, _, _, h => nomatch h
  | .expressionStatement _ :: _, _, _, _, h => nomatch h
  | .hole :: _, _, _, _, h => nomatch h

theorem declareFunction_mem (node : Node) (path : Path) (st st' : LocalsMap)
    (h : declareFunction node path st = some st') :
    ∀ q n, ((q, n) ∈ st' ↔
      (q, n) ∈ st ∨ (q = path ∧ (n ∈ paramsIdents (fnParams node) ∨ fnId node = some n))) := by
  cases node with
  | functionDeclaration id params fbody =>
    simp only [declareFunction] at h
    cases h1 : declareParams params path st with
    | none => rw [h1] at h; cases h
    | some st1 =>
      rw [h1] at h
      cases id with
      | some fname =>
        simp only [Option.some.injEq] at h
        subst h
        intro q n
        rw [mem_declareName_iff, declareParams_mem params path st st1 h1 q n]
        simp only [fnParams, fnId, Option.some.injEq, Prod.ext_iff]
        tauto
      | none =>
        simp only [Option.some.injEq] at h
        subst h
        intro q n
        rw [declareParams_mem params path st _ h1 q n]
        simp only [fnParams, fnId, reduceCtorEq]
        tauto
  | functionExpression id params fbody =>
    simp only [declareFunction] at h
    cases h1 : declareParams params path st with
    | none => rw [h1] at h; cases h
    | some st1 =>
      rw [h1] at h
      cases id with
      | some fname =>
        simp only [Option.some.injEq] at h
        subst h
        intro q n
        rw [mem_declareName_iff, declareParams_mem params path st st1 h1 q n]
        simp only [fnParams, fnId, Option.some.injEq, Prod.ext_iff]
        tauto
      | none =>
        simp only [Option.some.injEq] at h
        subst h
        intro q n
        rw [declareParams_mem params path st _ h1 q n]
        simp only [fnParams, fnId, reduceCtorEq]
        tauto
  | arrowFunctionExpression params fbody =>
    simp only [declareFunction] at h
    intro q n
    rw [declareParams_mem params path st st' h q n]
    simp only [fnParams, fnId, reduceCtorEq]
    tauto
  | program b =>
    simp only [declareFunction, Option.some.injEq] at h
    subst h
    simp [fnParams, fnId, paramsIdents]
  | blockStatement b =>
    simp only [declareFunction, Option.some.injEq] at h
    subst h
    simp [fnParams, fnId, paramsIdents]
  | variableDeclaration k d =>
    simp only [declareFunction, Option.some.injEq] at h
    subst h
    simp [fnParams, fnId, paramsIdents]
  | variableDeclarator i j =>
    simp only [declareFunction, Option.some.injEq] at h
    subst h
    simp [fnParams, fnId, paramsIdents]
  | classDeclaration i =>
    simp only [declareFunction, Option.some.injEq] at h
    subst h
    simp [fnParams, fnId, paramsIdents]
  | classExpression i =>
    simp only [declareFunction, Option.some.injEq] at h
    subst h
    simp [fnParams, fnId, paramsIdents]
  | tryStatement a b c =>
    simp only [declareFunction, Option.some.injEq] at h
    subst h
    simp [fnParams, fnId, paramsIdents]
  | catchClause a b =>
    simp only [declareFunction, Option.some.injEq] at h
    subst h
    simp [fnParams, fnId, paramsIdents]
  | identifier nm =>
    simp only [declareFunction, Option.some.injEq] at h
    subst h
    simp [fnParams, fnId, paramsIdents]
  | thisExpression =>
    simp only [declareFunction, Option.some.injEq] at h
    subst h
    simp [fnParams, fnId, paramsIdents]
  | objectPattern ps =>
    simp only [declareFunction, Option.some.injEq] at h
    subst h
    simp [fnParams, fnId, paramsIdents]
  | property v =>
    simp only [declareFunction, Option.some.injEq] at h
    subst h
    simp [fnParams, fnId, paramsIdents]
  | arrayPattern es =>
    simp only [declareFunction, Option.some.injEq] at h
    subst h
    simp [fnParams, fnId, paramsIdents]
  | restElement a =>
    simp only [declareFunction, Option.some.injEq] at h
    subst h
    simp [fnParams, fnId, paramsIdents]
  | assignmentPattern a b =>
    simp only [declareFunction, Option.some.injEq] at h
    subst h
    simp [fnParams, fnId, paramsIdents]
  | expressionStatement e =>
    simp only [declareFunction, Option.some.injEq] at h
    subst h
    simp [fnParams, fnId, paramsIdents]
  | hole =>
    simp only [declareFunction, Option.some.injEq] at h
    subst h
    simp [fnParams, fnId, paramsIdents]

theorem declareClass_mem (node : Node) (path : Path) (st : LocalsMap) :
    ∀ q n, ((q, n) ∈ declareClass node path st ↔
      (q, n) ∈ st ∨ (q = path ∧ classId node = some n)) := by
  intro q n
  cases node with
  | classDeclaration id =>
    cases id with
    | some cname =>
      show (q, n) ∈ declareName path cname st ↔ _
      rw [mem_declareName_iff]
      simp [classId, Prod.ext_iff, eq_comm]
    | none => simp [declareClass, classId]
  | classExpression id =>
    cases id with
    | some cname =>
      show (q, n) ∈ declareName path cname st ↔ _
      rw [mem_declareName_iff]
      simp [classId, Prod.ext_iff, eq_comm]
    | none => simp [declareClass, classId]
  | program b => simp [declareClass, classId]
  | functionDeclaration i p b => simp [declareClass, classId]
  | functionExpression i p b => simp [declareClass, classId]
  | arrowFunctionExpression p b => simp [declareClass, classId]
  | blockStatement b => simp [declareClass, classId]
  | variableDeclaration k d => simp [declareClass, classId]
  | variableDeclarator i j => simp [declareClass, classId]
  | tryStatement a b c => simp [declareClass, classId]
  | catchClause a b => simp [declareClass, classId]
  | identifier nm => simp [declareClass, classId]
  | thisExpression => simp [declareClass, classId]
  | objectPattern ps => simp [declareClass, classId]
  | property v => simp [declareClass, classId]
  | arrayPattern es => simp [declareClass, classId]
  | restElement a => simp [declareClass, classId]
  | assignmentPattern a b => simp [declareClass, classId]
  | expressionStatement e => simp [declareClass, classId]
  | hole => simp [declareClass, classId]

/-! ### Success of the pattern declarator on well-formed patterns -/

mutual

theorem declarePattern_isSome_of_wf : ∀ (node : Node) (p : Path) (st : LocalsMap),
    wfPattern node = true → ∃ st', declarePattern node p st = some st'
  | .identifier name, p, st, _ => ⟨declareName p name st, rfl⟩
  | .objectPattern props, p, st, h =>
    declarePatternProps_isSome_of_wf props p st (by simpa [wfPattern] using h)
  | .arrayPattern elems, p, st, h =>
    declarePatternElems_isSome_of_wf elems p st (by simpa [wfPattern] using h)
  | .restElement arg, p, st, h =>
    declarePattern_isSome_of_wf arg p st (by simpa [wfPattern] using h)
  | .assignmentPattern left r, p, st, h =>
    declarePattern_isSome_of_wf left p st (by simpa [wfPattern] using h)
  | .program _, _, _, h => nomatch h
  | .functionDeclaration _ _ _, _, _, h => nomatch h
  | .functionExpression _ _ _, _, _, h => nomatch h
  | .arrowFunctionExpression _ _, _, _, h => nomatch h
  | .blockStatement _, _, _, h => nomatch h
  | .variableDeclaration _ _, _, _, h => nomatch h
  | .variableDeclarator _ _, _, _, h => nomatch h
  | .classDeclaration _, _, _, h => nomatch h
  | .classExpression _, _, _, h => nomatch h
  | .tryStatement _ _ _, _, _, h => nomatch h
  | .catchClause _ _, _, _, h => nomatch h
  | .thisExpression, _, _, h => nomatch h
  | .property _, _, _, h => nomatch h
  | .expressionStatement _, _, _, h => nomatch h
  | .hole, _, _, h => nomatch h
termination_by node _ _ _ => (sizeOf node, 0)

theorem declarePatternProps_isSome_of_wf : ∀ (props : List Node) (p : Path) (st : LocalsMap),
    wfPatternProps props = true → ∃ st', declarePatternProps props p st = some st'
  | [], p, st, _ => ⟨st, rfl⟩
  | .property v :: rest, p, st, h => by
    rw [wfPatternProps, Bool.and_eq_true] at h
    obtain ⟨st1, h1⟩ := declarePattern_isSome_of_wf v p st h.1
    obtain ⟨st2, h2⟩ := declarePatternProps_isSome_of_wf rest p st1 h.2
    exact ⟨st2, by simp only [declarePatternProps]; rw [h1]; exact h2⟩
  | .restElement a :: rest, p, st, h => by
    rw [wfPatternProps, Bool.and_eq_true] at h
    obtain ⟨st1, h1⟩ := declarePattern_isSome_of_wf a p st h.1
    obtain ⟨st2, h2⟩ := declarePatternProps_isSome_of_wf rest p st1 h.2
    exact ⟨st2, by simp only [declarePatternProps]; rw [h1]; exact h2⟩
  | .program _ :: _, _, _, h => nomatch h
  | .functionDeclaration _ _ _ :: _, _, _, h => nomatch h
  | .functionExpression _ _ _ :: _, _, _, h => nomatch h
  | .arrowFunctionExpression _ _ :: _, _, _, h => nomatch h
  | .blockStatement _ :: _, _, _, h => nomatch h
  | .variableDeclaration _ _ :: _, _, _, h => nomatch h
  | .variableDeclarator _ _ :: _, _, _, h => nomatch h
  | .classDeclaration _ :: _, _, _, h => nomatch h
  | .classExpression _ :: _, _, _, h => nomatch h
  | .tryStatement _ _ _ :: _, _, _, h => nomatch h
  | .catchClause _ _ :: _, _, _, h => nomatch h
  | .identifier _ :: _, _, _, h => nomatch h
  | .thisExpression :: _, _, _, h => nomatch h
  | .objectPattern _ :: _, _, _, h => nomatch h
  | .arrayPattern _ :: _, _, _, h => nomatch h
  | .hole :: _, _, _, h => nomatch h
  | .expressionStatement _ :: _, _, _, h => nomatch h
termination_by props _ _ _ => (sizeOf props, 0)

theorem declarePatternElems_isSome_of_wf : ∀ (elems : List Node) (p : Path) (st : LocalsMap),
    wfPatternElems elems = true → ∃ st', declarePatternElems elems p st = some st'
  | [], p, st, _ => ⟨st, rfl⟩
  | .hole :: rest, p, st, h =>
    declarePatternElems_isSome_of_wf rest p st (by simpa [wfPatternElems] using h)
  | .identifier nm :: rest, p, st, h =>
    declarePatternElems_isSome_of_wf_cons (.identifier nm) rest p st (by exact h) (by intro h'; cases h')
  | .objectPattern props :: rest, p, st, h =>
    declarePatternElems_isSome_of_wf_cons (.objectPattern props) rest p st (by exact h) (by intro h'; cases h')
  | .arrayPattern es :: rest, p, st, h =>
    declarePatternElems_isSome_of_wf_cons (.arrayPattern es) rest p st (by exact h) (by intro h'; cases h')
  | .restElement a :: rest, p, st, h =>
    declarePatternElems_isSome_of_wf_cons (.restElement a) rest p st (by exact h) (by intro h'; cases h')
  | .assignmentPattern l r :: rest, p, st, h =>
    declarePatternElems_isSome_of_wf_cons (.assignmentPattern l r) rest p st (by exact h) (by intro h'; cases h')
  | .program b :: rest, p, st, h => nomatch h
  | .functionDeclaration i ps b :: rest, p, st, h => nomatch h
  | .functionExpression i ps b :: rest, p, st, h => nomatch h
  | .arrowFunctionExpression ps b :: rest, p, st, h => nomatch h
  | .blockStatement b :: rest, p, st, h => nomatch h
  | .variableDeclaration k d :: rest, p, st, h => nomatch h
  | .variableDeclarator i j :: rest, p, st, h => nomatch h
  | .classDeclaration i :: rest, p, st, h => nomatch h
  | .classExpression i :: rest, p, st, h => nomatch h
  | .tryStatement b c f :: rest, p, st, h => nomatch h
  | .catchClause a b :: rest, p, st, h => nomatch h
  | .thisExpression :: rest, p, st, h => nomatch h
  | .property v :: rest, p, st, h => nomatch h
  | .expressionStatement e :: rest, p, st, h => nomatch h
termination_by elems _ _ _ => (sizeOf elems, 1)

theorem declarePatternElems_isSome_of_wf_cons : ∀ (e : Node) (rest : List Node) (p : Path)
    (st : LocalsMap),
    wfPatternElems (e :: rest) = true →
    (e = Node.hole → False) →
    ∃ st', declarePatternElems (e :: rest) p st = some st'
  | e, rest, p, st, h, hne => by
    have hred : ∀ u : LocalsMap, declarePatternElems (e :: rest) p u =
        match declarePattern e p u with
        | none => none
        | some st1 => declarePatternElems rest p st1 := by
      intro u
      cases e <;> first | rfl | exact absurd rfl hne
    have hwf : wfPatternElems (e :: rest) = (wfPattern e && wfPatternElems rest) := by
      cases e <;> first | rfl | exact absurd rfl hne
    rw [hwf, Bool.and_eq_true] at h
    obtain ⟨st1, h1⟩ := declarePattern_isSome_of_wf e p st h.1
    obtain ⟨st2, h2⟩ := declarePatternElems_isSome_of_wf rest p st1 h.2
    exact ⟨st2, by rw [hred st, h1]; exact h2⟩
termination_by e rest _ _ _ _ => (sizeOf (e :: rest), 0)

end

theorem declareParams_isSome_of_wf : ∀ (params : List Node) (p : Path) (st : LocalsMap),
    (∀ q ∈ params, wfPattern q = true) → ∃ st', declareParams params p st = some st'
  | [], p, st, _ => ⟨st, rfl⟩
  | x :: rest, p, st, h => by
    obtain ⟨st1, h1⟩ := declarePattern_isSome_of_wf x p st (h x (List.mem_cons_self _ _))
    obtain ⟨st2, h2⟩ :=
      declareParams_isSome_of_wf rest p st1 (fun q hq => h q (List.mem_cons_of_mem _ hq))
    exact ⟨st2, by simp only [declareParams]; rw [h1]; exact h2⟩

/-! ### Monotonicity consequences of the effect lemmas -/

theorem declarePattern_mono {node : Node} {p : Path} {st st' : LocalsMap}
    (h : declarePattern node p st = some st') : ∀ e, e ∈ st → e ∈ st' :=
  fun e he => (declarePattern_mem node p st st' h e.1 e.2).mpr (Or.inl he)

theorem declarePatternProps_mono {props : List Node} {p : Path} {st st' : LocalsMap}
    (h : declarePatternProps props p st = some st') : ∀ e, e ∈ st → e ∈ st' :=
  fun e he => (declarePatternProps_mem props p st st' h e.1 e.2).mpr (Or.inl he)

theorem declarePatternElems_mono {elems : List Node} {p : Path} {st st' : LocalsMap}
    (h : declarePatternElems elems p st = some st') : ∀ e, e ∈ st → e ∈ st' :=
  fun e he => (declarePatternElems_mem elems p st st' h e.1 e.2).mpr (Or.inl he)

theorem declareParams_mono {params : List Node} {p : Path} {st st' : LocalsMap}
    (h : declareParams params p st = some st') : ∀ e, e ∈ st → e ∈ st' :=
  fun e he => (declareParams_mem params p st st' h e.1 e.2).mpr (Or.inl he)

theorem declareDeclarators_mono {decls : List Node} {p : Path} {st st' : LocalsMap}
    (h : declareDeclarators decls p st = some st') : ∀ e, e ∈ st → e ∈ st' :=
  fun e he => (declareDeclarators_mem decls p st st' h e.1 e.2).mpr (Or.inl he)

theorem declareFunction_mono {node : Node} {path : Path} {st st' : LocalsMap}
    (h : declareFunction node path st = some st') : ∀ e, e ∈ st → e ∈ st' :=
  fun e he => (declareFunction_mem node path st st' h e.1 e.2).mpr (Or.inl he)

theorem declareClass_mono {node : Node} {path : Path} {st : LocalsMap} :
    ∀ e, e ∈ st → e ∈ declareClass node path st :=
  fun e he => (declareClass_mem node path st e.1 e.2).mpr (Or.inl he)

theorem declareClass_eq_of_mem {node : Node} {path : Path} {t : LocalsMap}
    (h : ∀ n, classId node = some n → (path, n) ∈ t) : declareClass node path t = t := by
  cases node <;> try rfl
  case classDeclaration id =>
    cases id with
    | some c => exact declareName_eq_of_mem (h c rfl)
    | none => rfl
  case classExpression id =>
    cases id with
    | some c => exact declareName_eq_of_mem (h c rfl)
    | none => rfl

/-! ### Re-running a declaration step on an already-saturated map is the
identity -/

mutual

theorem declarePattern_again : ∀ (node : Node) (p : Path) (st st' : LocalsMap),
    declarePattern node p st = some st' →
    ∀ t : LocalsMap, (∀ e, e ∈ st' → e ∈ t) → declarePattern node p t = some t
  | .identifier name, p, st, st', h, t, ht => by
    simp only [declarePattern, Option.some.injEq] at h
    subst h
    simp only [declarePattern, Option.some.injEq]
    exact declareName_eq_of_mem (ht _ (self_mem_declareName p name st))
  | .objectPattern props, p, st, st', h, t, ht => by
    simp only [declarePattern] at h ⊢
    exact declarePatternProps_again props p st st' h t ht
  | .arrayPattern elems, p, st, st', h, t, ht => by
    simp only [declarePattern] at h ⊢
    exact declarePatternElems_again elems p st st' h t ht
  | .restElement arg, p, st, st', h, t, ht => by
    simp only [declarePattern] at h ⊢
    exact declarePattern_again arg p st st' h t ht
  | .assignmentPattern left r, p, st, st', h, t, ht => by
    simp only [declarePattern] at h ⊢
    exact declarePattern_again left p st st' h t ht
  | .program _, _, _, _, h, _, _ => nomatch h
  | .functionDeclaration _ _ _, _, _, _, h, _, _ => nomatch h
  | .functionExpression _ _ _, _, _, _, h, _, _ => nomatch h
  | .arrowFunctionExpression _ _, _, _, _, h, _, _ => nomatch h
  | .blockStatement _, _, _, _, h, _, _ => nomatch h
  | .variableDeclaration _ _, _, _, _, h, _, _ => nomatch h
  | .variableDeclarator _ _, _, _, _, h, _, _ => nomatch h
  | .classDeclaration _, _, _, _, h, _, _ => nomatch h
  | .classExpression _, _, _, _, h, _, _ => nomatch h
  | .tryStatement _ _ _, _, _, _, h, _, _ => nomatch h
  | .catchClause _ _, _, _, _, h, _, _ => nomatch h
  | .thisExpression, _, _, _, h, _, _ => nomatch h
  | .property _, _, _, _, h, _, _ => nomatch h
  | .expressionStatement _, _, _, _, h, _, _ => nomatch h
  | .hole, _, _, _, h, _, _ => nomatch h
termination_by node _ _ _ _ _ _ => (sizeOf node, 0)

theorem declarePatternProps_again : ∀ (props : List Node) (p : Path) (st st' : LocalsMap),
    declarePatternProps props p st = some st' →
    ∀ t : LocalsMap, (∀ e, e ∈ st' → e ∈ t) → declarePatternProps props p t = some t
  | [], p, st, st', h, t, ht => rfl
  | .property v :: rest, p, st, st', h, t, ht => by
    simp only [declarePatternProps] at h ⊢
    cases h1 : declarePattern v p st with
    | none => rw [h1] at h; cases h
    | some st1 =>
      rw [h1] at h
      have hmono := declarePatternProps_mono h
      rw [declarePattern_again v p st st1 h1 t (fun e he => ht e (hmono e he))]
      exact declarePatternProps_again rest p st1 st' h t ht
  | .restElement a :: rest, p, st, st', h, t, ht => by
    simp only [declarePatternProps] at h ⊢
    cases h1 : declarePattern a p st with
    | none => rw [h1] at h; cases h
    | some st1 =>
      rw [h1] at h
      have hmono := declarePatternProps_mono h
      rw [declarePattern_again a p st st1 h1 t (fun e he => ht e (hmono e he))]
      exact declarePatternProps_again rest p st1 st' h t ht
  | .program _ :: _, _, _, _, h, _, _ => nomatch h
  | .functionDeclaration _ _ _ :: _, _, _, _, h, _, _ => nomatch h
  | .functionExpression _ _ _ :: _, _, _, _, h, _, _ => nomatch h
  | .arrowFunctionExpression _ _ :: _, _, _, _, h, _, _ => nomatch h
  | .blockStatement _ :: _, _, _, _, h, _, _ => nomatch h
  | .variableDeclaration _ _ :: _, _, _, _, h, _, _ => nomatch h
  | .variableDeclarator _ _ :: _, _, _, _, h, _, _ => nomatch h
  | .classDeclaration _ :: _, _, _, _, h, _, _ => nomatch h
  | .classExpression _ :: _, _, _, _, h, _, _ => nomatch h
  | .tryStatement _ _ _ :: _, _, _, _, h, _, _ => nomatch h
  | .catchClause _ _ :: _, _, _, _, h, _, _ => nomatch h
  | .identifier _ :: _, _, _, _, h, _, _ => nomatch h
  | .thisExpression :: _, _, _, _, h, _, _ => nomatch h
  | .objectPattern _ :: _, _, _, _, h, _, _ => nomatch h
  | .arrayPattern _ :: _, _, _, _, h, _, _ => nomatch h
  | .hole :: _, _, _, _, h, _, _ => nomatch h
  | .expressionStatement _ :: _, _, _, _, h, _, _ => nomatch h
termination_by props _ _ _ _ _ _ => (sizeOf props, 0)

theorem declarePatternElems_again : ∀ (elems : List Node) (p : Path) (st st' : LocalsMap),
    declarePatternElems elems p st = some st' →
    ∀ t : LocalsMap, (∀ e, e ∈ st' → e ∈ t) → declarePatternElems elems p t = some t
  | [], p, st, st', h, t, ht => rfl
  | .hole :: rest, p, st, st', h, t, ht => by
    simp only [declarePatternElems] at h ⊢
    exact declarePatternElems_again rest p st st' h t ht
  | .identifier nm :: rest, p, st, st', h, t, ht =>
    declarePatternElems_again_cons (.identifier nm) rest p st st' (by exact h) (by intro h'; cases h') t ht
  | .objectPattern props :: rest, p, st, st', h, t, ht =>
    declarePatternElems_again_cons (.objectPattern props) rest p st st' (by exact h) (by intro h'; cases h') t ht
  | .arrayPattern es :: rest, p, st, st', h, t, ht =>
    declarePatternElems_again_cons (.arrayPattern es) rest p st st' (by exact h) (by intro h'; cases h') t ht
  | .restElement a :: rest, p, st, st', h, t, ht =>
    declarePatternElems_again_cons (.restElement a) rest p st st' (by exact h) (by intro h'; cases h') t ht
  | .assignmentPattern l r :: rest, p, st, st', h, t, ht =>
    declarePatternElems_again_cons (.assignmentPattern l r) rest p st st' (by exact h) (by intro h'; cases h') t ht
  | .program b :: rest, p, st, st', h, t, ht =>
    declarePatternElems_again_cons (.program b) rest p st st' (by exact h) (by intro h'; cases h') t ht
  | .functionDeclaration i ps b :: rest, p, st, st', h, t, ht =>
    declarePatternElems_again_cons (.functionDeclaration i ps b) rest p st st' (by exact h) (by intro h'; cases h') t ht
  | .functionExpression i ps b :: rest, p, st, st', h, t, ht =>
    declarePatternElems_again_cons (.functionExpression i ps b) rest p st st' (by exact h) (by intro h'; cases h') t ht
  | .arrowFunctionExpression ps b :: rest, p, st, st', h, t, ht =>
    declarePatternElems_again_cons (.arrowFunctionExpression ps b) rest p st st' (by exact h) (by intro h'; cases h') t ht
  | .blockStatement b :: rest, p, st, st', h, t, ht =>
    declarePatternElems_again_cons (.blockStatement b) rest p st st' (by exact h) (by intro h'; cases h') t ht
  | .variableDeclaration k d :: rest, p, st, st', h, t, ht =>
    declarePatternElems_again_cons (.variableDeclaration k d) rest p st st' (by exact h) (by intro h'; cases h') t ht
  | .variableDeclarator i j :: rest, p, st, st', h, t, ht =>
    declarePatternElems_again_cons (.variableDeclarator i j) rest p st st' (by exact h) (by intro h'; cases h') t ht
  | .classDeclaration i :: rest, p, st, st', h, t, ht =>
    declarePatternElems_again_cons (.classDeclaration i) rest p st st' (by exact h) (by intro h'; cases h') t ht
  | .classExpression i :: rest, p, st, st', h, t, ht =>
    declarePatternElems_again_cons (.classExpression i) rest p st st' (by exact h) (by intro h'; cases h') t ht
  | .tryStatement b c f :: rest, p, st, st', h, t, ht =>
    declarePatternElems_again_cons (.tryStatement b c f) rest p st st' (by exact h) (by intro h'; cases h') t ht
  | .catchClause a b :: rest, p, st, st', h, t, ht =>
    declarePatternElems_again_cons (.catchClause a b) rest p st st' (by exact h) (by intro h'; cases h') t ht
  | .thisExpression :: rest, p, st, st', h, t, ht =>
    declarePatternElems_again_cons .thisExpression rest p st st' (by exact h) (by intro h'; cases h') t ht
  | .property v :: rest, p, st, st', h, t, ht =>
    declarePatternElems_again_cons (.property v) rest p st st' (by exact h) (by intro h'; cases h') t ht
  | .expressionStatement e :: rest, p, st, st', h, t, ht =>
    declarePatternElems_again_cons (.expressionStatement e) rest p st st' (by exact h) (by intro h'; cases h') t ht
termination_by elems _ _ _ _ _ _ => (sizeOf elems, 1)

theorem declarePatternElems_again_cons : ∀ (e : Node) (rest : List Node) (p : Path)
    (st st' : LocalsMap),
    declarePatternElems (e :: rest) p st = some st' →
    (e = Node.hole → False) →
    ∀ t : LocalsMap, (∀ x, x ∈ st' → x ∈ t) → declarePatternElems (e :: rest) p t = some t
  | e, rest, p, st, st', h, hne, t, ht => by
    have hred : ∀ u : LocalsMap, declarePatternElems (e :: rest) p u =
        match declarePattern e p u with
        | none => none
        | some st1 => declarePatternElems rest p st1 := by
      intro u
      cases e <;> first | rfl | exact absurd rfl hne
    rw [hred] at h
    rw [hred]
    cases h1 : declarePattern e p st with
    | none => rw [h1] at h; cases h
    | some st1 =>
      rw [h1] at h
      have hmono := declarePatternElems_mono h
      rw [declarePattern_again e p st st1 h1 t (fun x hx => ht x (hmono x hx))]
      exact declarePatternElems_again rest p st1 st' h t ht
termination_by e rest _ _ _ _ _ _ _ => (sizeOf (e :: rest), 0)

end

theorem declareParams_again : ∀ (params : List Node) (p : Path) (st st' : LocalsMap),
    declareParams params p st = some st' →
    ∀ t : LocalsMap, (∀ e, e ∈ st' → e ∈ t) → declareParams params p t = some t
  | [], p, st, st', h, t, ht => rfl
  | x :: rest, p, st, st', h, t, ht => by
    simp only [declareParams] at h ⊢
    cases h1 : declarePattern x p st with
    | none => rw [h1] at h; cases h
    | some st1 =>
      rw [h1] at h
      have hmono := declareParams_mono h
      rw [declarePattern_again x p st st1 h1 t (fun e he => ht e (hmono e he))]
      exact declareParams_again rest p st1 st' h t ht

theorem declareDeclarators_again : ∀ (decls : List Node) (p : Path) (st st' : LocalsMap),
    declareDeclarators decls p st = some st' →
    ∀ t : LocalsMap, (∀ e, e ∈ st' → e ∈ t) → declareDeclarators decls p t = some t
  | [], p, st, st', h, t, ht => rfl
  | .variableDeclarator did dinit :: rest, p, st, st', h, t, ht => by
    simp only [declareDeclarators] at h ⊢
    cases h1 : declarePattern did p st with
    | none => rw [h1] at h; cases h
    | some st1 =>
      rw [h1] at h
      have hmono := declareDeclarators_mono h
      rw [declarePattern_again did p st st1 h1 t (fun e he => ht e (hmono e he))]
      exact declareDeclarators_again rest p st1 st' h t ht
  | .program _ :: _, _, _, _, h, _, _ => nomatch h
  | .functionDeclaration _ _ _ :: _, _, _, _, h, _, _ => nomatch h
  | .functionExpression _ _ _ :: _, _, _, _, h, _, _ => nomatch h
  | .arrowFunctionExpression _ _ :: _, _, _, _, h, _, _ => nomatch h
  | .blockStatement _ :: _, _, _, _, h, _, _ => nomatch h
  | .variableDeclaration _ _ :: _, _, _, _, h, _, _ => nomatch h
  | .classDeclaration _ :: _, _, _, _, h, _, _ => nomatch h
  | .classExpression _ :: _, _, _, _, h, _, _ => nomatch h
  | .tryStatement _ _ _ :: _, _, _, _, h, _, _ => nomatch h
  | .catchClause _ _ :: _, _, _, _, h, _, _ => nomatch h
  | .identifier _ :: _, _, _, _, h, _, _ => nomatch h
  | .thisExpression :: _, _, _, _, h, _, _ => nomatch h
  | .objectPattern _ :: _, _, _, _, h, _, _ => nomatch h
  | .property _ :: _, _, _, _, h, _, _ => nomatch h
  | .arrayPattern _ :: _, _, _, _, h, _, _ => nomatch h
  | .restElement _ :: _, _, _, _, h, _, _ => nomatch h
  | .assignmentPattern _ _ :: _, _, _, _, h, _, _ => nomatch h
  | .expressionStatement _ :: _, _, _, _, h, _, _ => nomatch h
  | .hole :: _, _, _, _, h, _, _ => nomatch h

theorem declareFunction_again (node : Node) (path : Path) (st st' : LocalsMap)
    (h : declareFunction node path st = some st') :
    ∀ t : LocalsMap, (∀ e, e ∈ st' → e ∈ t) → declareFunction node path t = some t := by
  intro t ht
  cases node <;> try rfl
  case functionDeclaration id params fbody =>
    simp only [declareFunction] at h ⊢
    cases h1 : declareParams params path st with
    | none => rw [h1] at h; cases h
    | some st1 =>
      rw [h1] at h
      have hsub : ∀ e, e ∈ st1 → e ∈ st' := by
        cases id with
        | some n =>
          simp only [Option.some.injEq] at h
          subst h
          exact fun e he => mem_declareName he
        | none =>
          simp only [Option.some.injEq] at h
          subst h
          exact fun e he => he
      rw [declareParams_again params path st st1 h1 t (fun e he => ht e (hsub e he))]
      cases id with
      | some n =>
        simp only [Option.some.injEq] at h
        subst h
        simp only [Option.some.injEq]
        exact declareName_eq_of_mem (ht _ (self_mem_declareName _ _ _))
      | none => rfl
  case functionExpression id params fbody =>
    simp only [declareFunction] at h ⊢
    cases h1 : declareParams params path st with
    | none => rw [h1] at h; cases h
    | some st1 =>
      rw [h1] at h
      have hsub : ∀ e, e ∈ st1 → e ∈ st' := by
        cases id with
        | some n =>
          simp only [Option.some.injEq] at h
          subst h
          exact fun e he => mem_declareName he
        | none =>
          simp only [Option.some.injEq] at h
          subst h
          exact fun e he => he
      rw [declareParams_again params path st st1 h1 t (fun e he => ht e (hsub e he))]
      cases id with
      | some n =>
        simp only [Option.some.injEq] at h
        subst h
        simp only [Option.some.injEq]
        exact declareName_eq_of_mem (ht _ (self_mem_declareName _ _ _))
      | none => rfl
  case arrowFunctionExpression params fbody =>
    simp only [declareFunction] at h ⊢
    exact declareParams_again params path st st' h t ht

theorem declareFunction_fix (node : Node) (path : Path) (st st' : LocalsMap)
    (h : declareFunction node path st = some st') :
    StepFix (declareFunction node path) st st' :=
  ⟨declareFunction_mono h, declareFunction_again node path st st' h⟩

/-! ### StepFix for the build-pass handlers -/

theorem variableDeclarationHandler_fix (node : Node) (parents : List (Path × Node))
    (st st' : LocalsMap) (h : variableDeclarationHandler node parents st = some st') :
    StepFix (variableDeclarationHandler node parents) st st' := by
  cases node <;>
    first
    | · simp only [variableDeclarationHandler, Option.some.injEq] at h
        subst h
        exact ⟨fun e he => he, fun t ht => rfl⟩
    | · rename_i kind decls
        simp only [variableDeclarationHandler] at h
        cases hf : findLastScope (scopePredOf kind) parents with
        | none => rw [hf] at h; cases h
        | some pa =>
          obtain ⟨p, a⟩ := pa
          rw [hf] at h
          constructor
          · exact declareDeclarators_mono h
          · intro t ht
            simp only [variableDeclarationHandler]
            rw [hf]
            exact declareDeclarators_again decls p st st' h t ht

theorem functionDeclarationHandler_fix (node : Node) (path : Path)
    (parents : List (Path × Node)) (st st' : LocalsMap)
    (h : functionDeclarationHandler node path parents st = some st') :
    StepFix (functionDeclarationHandler node path parents) st st' := by
  cases node <;>
    first
    | · simp only [functionDeclarationHandler, Option.some.injEq] at h
        subst h
        exact ⟨fun e he => he, fun t ht => rfl⟩
    | · rename_i id params fbody
        simp only [functionDeclarationHandler] at h
        cases hf : findLastScope isScope parents.dropLast with
        | none => rw [hf] at h; cases h
        | some pa =>
          obtain ⟨p, a⟩ := pa
          rw [hf] at h
          cases id with
          | some n =>
            replace h : declareFunction (.functionDeclaration (some n) params fbody) path
                (declareName p n st) = some st' := h
            constructor
            · exact fun e he => declareFunction_mono h e (mem_declareName he)
            · intro t ht
              simp only [functionDeclarationHandler]
              rw [hf]
              show declareFunction (.functionDeclaration (some n) params fbody) path
                (declareName p n t) = some t
              have hn : (p, n) ∈ st' :=
                declareFunction_mono h _ (self_mem_declareName _ _ _)
              rw [declareName_eq_of_mem (ht _ hn)]
              exact declareFunction_again _ path _ st' h t ht
          | none =>
            replace h : declareFunction (.functionDeclaration none params fbody) path st
                = some st' := h
            constructor
            · exact declareFunction_mono h
            · intro t ht
              simp only [functionDeclarationHandler]
              rw [hf]
              show declareFunction (.functionDeclaration none params fbody) path t = some t
              exact declareFunction_again _ path _ st' h t ht

theorem classDeclarationHandler_fix (node : Node) (path : Path)
    (parents : List (Path × Node)) (st st' : LocalsMap)
    (h : classDeclarationHandler node path parents st = some st') :
    StepFix (classDeclarationHandler node path parents) st st' := by
  cases node <;>
    first
    | · simp only [classDeclarationHandler, Option.some.injEq] at h
        subst h
        exact ⟨fun e he => he, fun t ht => rfl⟩
    | · rename_i id
        simp only [classDeclarationHandler] at h
        cases hf : findLastScope isBlockScope parents.dropLast with
        | none => rw [hf] at h; cases h
        | some pa =>
          obtain ⟨p, a⟩ := pa
          rw [hf] at h
          cases id with
          | some n =>
            replace h : some (declareClass (.classDeclaration (some n)) path
                (declareName p n st)) = some st' := h
            simp only [Option.some.injEq] at h
            subst h
            constructor
            · exact fun e he => declareClass_mono e (mem_declareName he)
            · intro t ht
              simp only [classDeclarationHandler]
              rw [hf]
              show some (declareClass (.classDeclaration (some n)) path
                (declareName p n t)) = some t
              simp only [Option.some.injEq]
              have hn : (p, n) ∈ declareClass (Node.classDeclaration (some n)) path
                  (declareName p n st) :=
                declareClass_mono _ (self_mem_declareName _ _ _)
              rw [declareName_eq_of_mem (ht _ hn)]
              exact declareClass_eq_of_mem (fun m hm => ht _
                ((declareClass_mem _ path (declareName p n st) path m).mpr (Or.inr ⟨rfl, hm⟩)))
          | none =>
            replace h : some (declareClass (.classDeclaration none) path st) = some st' := h
            simp only [Option.some.injEq] at h
            subst h
            constructor
            · exact fun e he => declareClass_mono e he
            · intro t ht
              simp only [classDeclarationHandler]
              rw [hf]
              show some (declareClass (.classDeclaration none) path t) = some t
              simp only [Option.some.injEq]
              exact declareClass_eq_of_mem (fun m hm => ht _
                ((declareClass_mem _ path st path m).mpr (Or.inr ⟨rfl, hm⟩)))

theorem tryStatementHandler_fix (node : Node) (path : Path) (st st' : LocalsMap)
    (h : tryStatementHandler node path st = some st') :
    StepFix (tryStatementHandler node path) st st' := by
  cases node <;>
    first
    | · simp only [tryStatementHandler, Option.some.injEq] at h
        subst h
        exact ⟨fun e he => he, fun t ht => rfl⟩
    | · rename_i blk handler fin
        cases handler <;>
          first
          | · simp only [tryStatementHandler, Option.some.injEq] at h
              subst h
              exact ⟨fun e he => he, fun t ht => rfl⟩
          | · rename_i param cbody
              simp only [tryStatementHandler] at h
              constructor
              · exact declarePattern_mono h
              · intro t ht
                simp only [tryStatementHandler]
                exact declarePattern_again param (path ++ [1]) st st' h t ht
          | · exact absurd h (by simp [tryStatementHandler])

/-! ### StepFix for the whole build pass: a successful build only grows
the binding tables, and re-running it on its own output map (or any
larger one) is the identity -/

mutual

theorem buildWalk_fix : ∀ (node : Node) (path : Path) (parents : List (Path × Node))
    (st st' : LocalsMap), buildWalk node path parents st = some st' →
    StepFix (buildWalk node path parents) st st'
  | .program body, path, parents, st, st', h => by
    have hfix := buildWalkList_fix body path 0
      (parents ++ [(path, .program body)]) st st' (by exact h)
    exact ⟨hfix.1, fun t ht => hfix.2 t ht⟩
  | .functionDeclaration id params fbody, path, parents, st, st', h => by
    simp only [buildWalk] at h
    split at h
    · cases h
    · rename_i st1 h1
      split at h
      · cases h
      · rename_i st2 h2
        split at h
        · cases h
        · rename_i st3 h3
          have f1 := buildWalkList_fix _ _ _ _ _ _ h1
          have f2 := buildWalk_fix _ _ _ _ _ h2
          have f3 := declareFunction_fix _ _ _ _ h3
          have f4 := functionDeclarationHandler_fix _ _ _ _ _ h
          constructor
          · exact fun e he => f4.1 e (f3.1 e (f2.1 e (f1.1 e he)))
          · intro t ht
            simp only [buildWalk]
            rw [f1.2 t (fun e he => ht e (f4.1 e (f3.1 e (f2.1 e he))))]
            show (match buildWalk fbody (path ++ [params.length])
                (parents ++ [(path, Node.functionDeclaration id params fbody)]) t with
              | none => none
              | some st2 =>
                match declareFunction (Node.functionDeclaration id params fbody) path st2 with
                | none => none
                | some st3 => functionDeclarationHandler (Node.functionDeclaration id params fbody)
                    path (parents ++ [(path, Node.functionDeclaration id params fbody)]) st3) = some t
            rw [f2.2 t (fun e he => ht e (f4.1 e (f3.1 e he)))]
            show (match declareFunction (Node.functionDeclaration id params fbody) path t with
              | none => none
              | some st3 => functionDeclarationHandler (Node.functionDeclaration id params fbody)
                  path (parents ++ [(path, Node.functionDeclaration id params fbody)]) st3) = some t
            rw [f3.2 t (fun e he => ht e (f4.1 e he))]
            exact f4.2 t ht
  | .functionExpression id params fbody, path, parents, st, st', h => by
    simp only [buildWalk] at h
    split at h
    · cases h
    · rename_i st1 h1
      split at h
      · cases h
      · rename_i st2 h2
        have f1 := buildWalkList_fix _ _ _ _ _ _ h1
        have f2 := buildWalk_fix _ _ _ _ _ h2
        have f3 := declareFunction_fix _ _ _ _ h
        constructor
        · exact fun e he => f3.1 e (f2.1 e (f1.1 e he))
        · intro t ht
          simp only [buildWalk]
          rw [f1.2 t (fun e he => ht e (f3.1 e (f2.1 e he)))]
          show (match buildWalk fbody (path ++ [params.length])
              (parents ++ [(path, Node.functionExpression id params fbody)]) t with
            | none => none
            | some st2 =>
                declareFunction (Node.functionExpression id params fbody) path st2) = some t
          rw [f2.2 t (fun e he => ht e (f3.1 e he))]
          exact f3.2 t ht
  | .arrowFunctionExpression params fbody, path, parents, st, st', h => by
    simp only [buildWalk] at h
    split at h
    · cases h
    · rename_i st1 h1
      split at h
      · cases h
      · rename_i st2 h2
        have f1 := buildWalkList_fix _ _ _ _ _ _ h1
        have f2 := buildWalk_fix _ _ _ _ _ h2
        have f3 := declareFunction_fix _ _ _ _ h
        constructor
        · exact fun e he => f3.1 e (f2.1 e (f1.1 e he))
        · intro t ht
          simp only [buildWalk]
          rw [f1.2 t (fun e he => ht e (f3.1 e (f2.1 e he)))]
          show (match buildWalk fbody (path ++ [params.length])
              (parents ++ [(path, Node.arrowFunctionExpression params fbody)]) t with
            | none => none
            | some st2 =>
                declareFunction (Node.arrowFunctionExpression params fbody) path st2) = some t
          rw [f2.2 t (fun e he => ht e (f3.1 e he))]
          exact f3.2 t ht
  | .blockStatement body, path, parents, st, st', h => by
    have hfix := buildWalkList_fix body path 0
      (parents ++ [(path, .blockStatement body)]) st st' (by exact h)
    exact ⟨hfix.1, fun t ht => hfix.2 t ht⟩
  | .variableDeclaration kind decls, path, parents, st, st', h => by
    simp only [buildWalk] at h
    split at h
    · cases h
    · rename_i st1 h1
      have f1 := buildWalkList_fix _ _ _ _ _ _ h1
      have f2 := variableDeclarationHandler_fix _ _ _ _ h
      constructor
      · exact fun e he => f2.1 e (f1.1 e he)
      · intro t ht
        simp only [buildWalk]
        rw [f1.2 t (fun e he => ht e (f2.1 e he))]
        exact f2.2 t ht
  | .variableDeclarator did dinit, path, parents, st, st', h => by
    simp only [buildWalk] at h
    split at h
    · cases h
    · rename_i st1 h1
      have f1 := buildWalk_fix _ _ _ _ _ h1
      have f2 := buildWalk_fix _ _ _ _ _ h
      constructor
      · exact fun e he => f2.1 e (f1.1 e he)
      · intro t ht
        simp only [buildWalk]
        rw [f1.2 t (fun e he => ht e (f2.1 e he))]
        exact f2.2 t ht
  | .classDeclaration id, path, parents, st, st', h => by
    simp only [buildWalk] at h
    have hc := classDeclarationHandler_fix (Node.classDeclaration id) path
      (parents ++ [(path, Node.classDeclaration id)])
      (declareClass (Node.classDeclaration id) path st) st' h
    constructor
    · exact fun e he => hc.1 e (declareClass_mono e he)
    · intro t ht
      simp only [buildWalk]
      rw [declareClass_eq_of_mem (fun n hn => ht _ (hc.1 _
        ((declareClass_mem (Node.classDeclaration id) path st path n).mpr (Or.inr ⟨rfl, hn⟩))))]
      exact hc.2 t ht
  | .classExpression id, path, parents, st, st', h => by
    simp only [buildWalk, Option.some.injEq] at h
    subst h
    constructor
    · exact fun e he => declareClass_mono e he
    · intro t ht
      simp only [buildWalk, Option.some.injEq]
      exact declareClass_eq_of_mem (fun n hn => ht _
        ((declareClass_mem (Node.classExpression id) path st path n).mpr (Or.inr ⟨rfl, hn⟩)))
  | .tryStatement blk handler fin, path, parents, st, st', h => by
    simp only [buildWalk] at h
    split at h
    · cases h
    · rename_i st1 h1
      split at h
      · cases h
      · rename_i st2 h2
        split at h
        · cases h
        · rename_i st3 h3
          have f1 := buildWalk_fix _ _ _ _ _ h1
          have f2 := buildWalk_fix _ _ _ _ _ h2
          have f3 := buildWalk_fix _ _ _ _ _ h3
          have f4 := tryStatementHandler_fix _ _ _ _ h
          constructor
          · exact fun e he => f4.1 e (f3.1 e (f2.1 e (f1.1 e he)))
          · intro t ht
            simp only [buildWalk]
            rw [f1.2 t (fun e he => ht e (f4.1 e (f3.1 e (f2.1 e he))))]
            show (match buildWalk handler (path ++ [1])
                (parents ++ [(path, Node.tryStatement blk handler fin)]) t with
              | none => none
              | some st2 =>
                match buildWalk fin (path ++ [2])
                    (parents ++ [(path, Node.tryStatement blk handler fin)]) st2 with
                | none => none
                | some st3 =>
                    tryStatementHandler (Node.tryStatement blk handler fin) path st3) = some t
            rw [f2.2 t (fun e he => ht e (f4.1 e (f3.1 e he)))]
            show (match buildWalk fin (path ++ [2])
                (parents ++ [(path, Node.tryStatement blk handler fin)]) t with
              | none => none
              | some st3 =>
                  tryStatementHandler (Node.tryStatement blk handler fin) path st3) = some t
            rw [f3.2 t (fun e he => ht e (f4.1 e he))]
            exact f4.2 t ht
  | .catchClause param cbody, path, parents, st, st', h => by
    simp only [buildWalk] at h
    split at h
    · cases h
    · rename_i st1 h1
      have f1 := buildWalk_fix _ _ _ _ _ h1
      have f2 := buildWalk_fix _ _ _ _ _ h
      constructor
      · exact fun e he => f2.1 e (f1.1 e he)
      · intro t ht
        simp only [buildWalk]
        rw [f1.2 t (fun e he => ht e (f2.1 e he))]
        exact f2.2 t ht
  | .identifier nm, path, parents, st, st', h => by
    simp only [buildWalk, Option.some.injEq] at h
    subst h
    exact ⟨fun e he => he, fun t ht => rfl⟩
  | .thisExpression, path, parents, st, st', h => by
    simp only [buildWalk, Option.some.injEq] at h
    subst h
    exact ⟨fun e he => he, fun t ht => rfl⟩
  | .objectPattern props, path, parents, st, st', h => by
    have hfix := buildWalkList_fix props path 0
      (parents ++ [(path, .objectPattern props)]) st st' (by exact h)
    exact ⟨hfix.1, fun t ht => hfix.2 t ht⟩
  | .property v, path, parents, st, st', h => by
    have hfix := buildWalk_fix v (path ++ [0])
      (parents ++ [(path, .property v)]) st st' (by exact h)
    exact ⟨hfix.1, fun t ht => hfix.2 t ht⟩
  | .arrayPattern elems, path, parents, st, st', h => by
    have hfix := buildWalkList_fix elems path 0
      (parents ++ [(path, .arrayPattern elems)]) st st' (by exact h)
    exact ⟨hfix.1, fun t ht => hfix.2 t ht⟩
  | .restElement arg, path, parents, st, st', h => by
    have hfix := buildWalk_fix arg (path ++ [0])
      (parents ++ [(path, .restElement arg)]) st st' (by exact h)
    exact ⟨hfix.1, fun t ht => hfix.2 t ht⟩
  | .assignmentPattern l r, path, parents, st, st', h => by
    simp only [buildWalk] at h
    split at h
    · cases h
    · rename_i st1 h1
      have f1 := buildWalk_fix _ _ _ _ _ h1
      have f2 := buildWalk_fix _ _ _ _ _ h
      constructor
      · exact fun e he => f2.1 e (f1.1 e he)
      · intro t ht
        simp only [buildWalk]
        rw [f1.2 t (fun e he => ht e (f2.1 e he))]
        exact f2.2 t ht
  | .expressionStatement e, path, parents, st, st', h => by
    have hfix := buildWalk_fix e (path ++ [0])
      (parents ++ [(path, .expressionStatement e)]) st st' (by exact h)
    exact ⟨hfix.1, fun t ht => hfix.2 t ht⟩
  | .hole, path, parents, st, st', h => by
    simp only [buildWalk, Option.some.injEq] at h
    subst h
    exact ⟨fun e he => he, fun t ht => rfl⟩
termination_by node _ _ _ _ _ => sizeOf node

theorem buildWalkList_fix : ∀ (nodes : List Node) (base : Path) (i : Nat)
    (parents : List (Path × Node)) (st st' : LocalsMap),
    buildWalkList nodes base i parents st = some st' →
    StepFix (buildWalkList nodes base i parents) st st'
  | [], base, i, parents, st, st', h => by
    simp only [buildWalkList, Option.some.injEq] at h
    subst h
    exact ⟨fun e he => he, fun t ht => rfl⟩
  | x :: rest, base, i, parents, st, st', h => by
    simp only [buildWalkList] at h
    split at h
    · cases h
    · rename_i st1 h1
      have f1 := buildWalk_fix _ _ _ _ _ h1
      have f2 := buildWalkList_fix _ _ _ _ _ _ h
      constructor
      · exact fun e he => f2.1 e (f1.1 e he)
      · intro t ht
        simp only [buildWalkList]
        rw [f1.2 t (fun e he => ht e (f2.1 e he))]
        exact f2.2 t ht
termination_by nodes _ _ _ _ _ _ => sizeOf nodes

end

/-! ### The classification pass mutates exactly the recorded nodes: its
final write table is the initial one with the `parents` assignment of
every recorded reference applied in order -/

mutual

theorem classifyWalk_writes : ∀ (node : Node) (path : Path)
    (parents : List (Path × Node)) (locals : LocalsMap) (w : Writes),
    (classifyWalk node path parents locals w).1 =
      (classifyWalk node path parents locals w).2.foldl
        (fun a r => setAssoc r.path r.parents a) w
  | .program body, path, parents, locals, w => by
    simp only [classifyWalk]
    exact classifyWalkList_writes body path 0 _ locals w
  | .functionDeclaration id params fbody, path, parents, locals, w => by
    simp only [classifyWalk, List.foldl_append]
    rw [← classifyWalkList_writes params path 0 _ locals w]
    exact classifyWalk_writes fbody _ _ locals _
  | .functionExpression id params fbody, path, parents, locals, w => by
    simp only [classifyWalk, List.foldl_append]
    rw [← classifyWalkList_writes params path 0 _ locals w]
    exact classifyWalk_writes fbody _ _ locals _
  | .arrowFunctionExpression params fbody, path, parents, locals, w => by
    simp only [classifyWalk, List.foldl_append]
    rw [← classifyWalkList_writes params path 0 _ locals w]
    exact classifyWalk_writes fbody _ _ locals _
  | .blockStatement body, path, parents, locals, w => by
    simp only [classifyWalk]
    exact classifyWalkList_writes body path 0 _ locals w
  | .variableDeclaration kind decls, path, parents, locals, w => by
    simp only [classifyWalk]
    exact classifyWalkList_writes decls path 0 _ locals w
  | .variableDeclarator did dinit, path, parents, locals, w => by
    simp only [classifyWalk, List.foldl_append]
    rw [← classifyWalk_writes did _ _ locals w]
    exact classifyWalk_writes dinit _ _ locals _
  | .classDeclaration id, path, parents, locals, w => by
    simp only [classifyWalk, List.foldl_nil]
  | .classExpression id, path, parents, locals, w => by
    simp only [classifyWalk, List.foldl_nil]
  | .tryStatement blk handler fin, path, parents, locals, w => by
    simp only [classifyWalk, List.foldl_append]
    rw [← classifyWalk_writes blk _ _ locals w]
    rw [← classifyWalk_writes handler _ _ locals _]
    exact classifyWalk_writes fin _ _ locals _
  | .catchClause param cbody, path, parents, locals, w => by
    simp only [classifyWalk, List.foldl_append]
    rw [← classifyWalk_writes param _ _ locals w]
    exact classifyWalk_writes cbody _ _ locals _
  | .identifier name, path, parents, locals, w => by
    simp only [classifyWalk]
    cases hi : identifier path name (parents ++ [(path, Node.identifier name)]) locals with
    | none => simp
    | some r => simp
  | .thisExpression, path, parents, locals, w => by
    simp only [classifyWalk]
    cases hi : thisExpressionHandler path (parents ++ [(path, Node.thisExpression)]) with
    | none => simp
    | some r => simp
  | .objectPattern props, path, parents, locals, w => by
    simp only [classifyWalk]
    exact classifyWalkList_writes props path 0 _ locals w
  | .property v, path, parents, locals, w => by
    simp only [classifyWalk]
    exact classifyWalk_writes v _ _ locals w
  | .arrayPattern elems, path, parents, locals, w => by
    simp only [classifyWalk]
    exact classifyWalkList_writes elems path 0 _ locals w
  | .restElement arg, path, parents, locals, w => by
    simp only [classifyWalk]
    exact classifyWalk_writes arg _ _ locals w
  | .assignmentPattern l r, path, parents, locals, w => by
    simp only [classifyWalk, List.foldl_append]
    rw [← classifyWalk_writes l _ _ locals w]
    exact classifyWalk_writes r _ _ locals _
  | .expressionStatement e, path, parents, locals, w => by
    simp only [classifyWalk]
    exact classifyWalk_writes e _ _ locals w
  | .hole, path, parents, locals, w => by
    simp only [classifyWalk, List.foldl_nil]
termination_by node _ _ _ _ => sizeOf node

theorem classifyWalkList_writes : ∀ (nodes : List Node) (base : Path) (i : Nat)
    (parents : List (Path × Node)) (locals : LocalsMap) (w : Writes),
    (classifyWalkList nodes base i parents locals w).1 =
      (classifyWalkList nodes base i parents locals w).2.foldl
        (fun a r => setAssoc r.path r.parents a) w
  | [], base, i, parents, locals, w => by
    simp only [classifyWalkList, List.foldl_nil]
  | x :: rest, base, i, parents, locals, w => by
    simp only [classifyWalkList, List.foldl_append]
    rw [← classifyWalk_writes x _ _ locals w]
    exact classifyWalkList_writes rest base (i + 1) parents locals _
termination_by nodes _ _ _ _ _ => sizeOf nodes

end

/-! ### Characterization of the identifier and this visitors -/

theorem identifierLoop_eq_some_iff {path : Path} {name : String}
    {full parents : List (Path × Node)} {locals : LocalsMap} {r : GRef} :
    identifierLoop path name full parents locals = some r ↔
      (r = ⟨path, .identifier name, full⟩ ∧
        ∀ x ∈ parents,
          ¬(name = "arguments" ∧ declaresArguments x.2 = true) ∧ (x.1, name) ∉ locals) := by
  induction parents with
  | nil =>
    simp only [identifierLoop, Option.some.injEq]
    constructor
    · rintro rfl
      exact ⟨rfl, fun x hx => absurd hx (List.not_mem_nil x)⟩
    · rintro ⟨rfl, _⟩
      rfl
  | cons x rest ih =>
    obtain ⟨q, a⟩ := x
    simp only [identifierLoop]
    by_cases h1 : name = "arguments" ∧ declaresArguments a = true
    · rw [if_pos h1]
      simp only [reduceCtorEq, false_iff, not_and]
      intro _ hall
      exact (hall (q, a) (List.mem_cons_self _ _)).1 h1.1 h1.2
    · rw [if_neg h1]
      by_cases h2 : (q, name) ∈ locals
      · rw [if_pos h2]
        simp only [reduceCtorEq, false_iff, not_and]
        intro _ hall
        exact (hall (q, a) (List.mem_cons_self _ _)).2 h2
      · rw [if_neg h2]
        rw [ih]
        constructor
        · rintro ⟨rfl, hall⟩
          refine ⟨rfl, ?_⟩
          intro y hy
          rcases List.mem_cons.mp hy with rfl | hy
          · exact ⟨h1, h2⟩
          · exact hall y hy
        · rintro ⟨rfl, hall⟩
          exact ⟨rfl, fun y hy => hall y (List.mem_cons_of_mem _ hy)⟩

theorem identifier_eq_some_iff {path : Path} {name : String}
    {parents : List (Path × Node)} {locals : LocalsMap} {r : GRef} :
    identifier path name parents locals = some r ↔
      (name ≠ "undefined" ∧ r = ⟨path, .identifier name, parents⟩ ∧
        ∀ x ∈ parents,
          ¬(name = "arguments" ∧ declaresArguments x.2 = true) ∧ (x.1, name) ∉ locals) := by
  unfold identifier
  by_cases hu : name = "undefined"
  · rw [if_pos hu]
    simp [hu]
  · rw [if_neg hu]
    rw [identifierLoop_eq_some_iff]
    simp [hu]

theorem thisExpressionHandler_eq_some_iff {path : Path}
    {parents : List (Path × Node)} {r : GRef} :
    thisExpressionHandler path parents = some r ↔
      (r = ⟨path, .thisExpression, parents⟩ ∧ ∀ x ∈ parents, declaresThis x.2 = false) := by
  unfold thisExpressionHandler
  by_cases h : parents.any (fun x => declaresThis x.2) = true
  · rw [if_pos h]
    simp only [reduceCtorEq, false_iff, not_and]
    rw [List.any_eq_true] at h
    obtain ⟨x, hx, hd⟩ := h
    intro _ hall
    rw [hall x hx] at hd
    cases hd
  · rw [if_neg h]
    simp only [Option.some.injEq]
    rw [List.any_eq_true] at h
    push_neg at h
    constructor
    · intro he
      refine ⟨he.symm, fun x hx => ?_⟩
      exact Bool.eq_false_iff.mpr (h x hx)
    · intro hh
      exact hh.1.symm

/-! ### The key comparison agrees with the string order -/

theorem charListLe_iff : ∀ (as bs : List Char), charListLe as bs = true ↔ as ≤ bs
  | [], bs => iff_of_true rfl (not_lt.mp (fun h => nomatch h))
  | c :: cs, [] =>
    iff_of_false (by simp [charListLe])
      (fun hle => absurd (show ([] : List Char) < c :: cs from List.Lex.nil) hle.not_lt)
  | c :: cs, d :: ds => by
    by_cases h1 : c.toNat < d.toNat
    · refine iff_of_true (by simp [charListLe, h1]) (not_lt.mp (fun hlex => ?_))
      have hlex' : List.Lex (· < ·) (d :: ds) (c :: cs) := hlex
      cases hlex' with
      | rel hr => exact Nat.lt_asymm h1 hr
      | cons hr => exact Nat.lt_irrefl _ h1
    · by_cases h2 : d.toNat < c.toNat
      · refine iff_of_false (by simp [charListLe, h1, h2]) (fun hle => ?_)
        exact absurd (show (d :: ds) < (c :: cs) from List.Lex.rel h2) hle.not_lt
      · have hcd : c = d := le_antisymm (not_lt.mp (fun hh => h2 hh)) (not_lt.mp (fun hh => h1 hh))
        subst hcd
        have hred : charListLe (c :: cs) (c :: ds) = charListLe cs ds := by
          simp [charListLe, Nat.lt_irrefl]
        rw [hred, charListLe_iff cs ds]
        constructor
        · intro h
          refine not_lt.mp (fun hlex => ?_)
          have hlex' : List.Lex (· < ·) (c :: ds) (c :: cs) := hlex
          cases hlex' with
          | rel hr => exact Nat.lt_irrefl _ hr
          | cons hr => exact absurd hr (not_lt.mpr h)
        · intro h
          refine not_lt.mp (fun hlex => ?_)
          exact absurd
            (show (c :: ds) < (c :: cs) from
              List.Lex.cons (show List.Lex (· < ·) ds cs from hlex)) h.not_lt

theorem strLe_iff (a b : String) : strLe a b = true ↔ a ≤ b := by
  unfold strLe
  rw [charListLe_iff]
  exact String.le_iff_toList_le.symm

/-! ### The key sort is a sorted permutation -/

theorem sortedInsert_perm (s : String) : ∀ l : List String, (sortedInsert s l).Perm (s :: l)
  | [] => List.Perm.refl _
  | t :: rest => by
    unfold sortedInsert
    by_cases h : strLe s t = true
    · rw [if_pos h]
    · rw [if_neg h]
      exact ((sortedInsert_perm s rest).cons t).trans (List.Perm.swap s t rest)

theorem mem_sortedInsert {s x : String} {l : List String} :
    x ∈ sortedInsert s l ↔ x = s ∨ x ∈ l := by
  rw [(sortedInsert_perm s l).mem_iff]
  simp

theorem sortNames_perm : ∀ l : List String, (sortNames l).Perm l
  | [] => List.Perm.refl _
  | s :: rest => by
    unfold sortNames
    exact (sortedInsert_perm s (sortNames rest)).trans ((sortNames_perm rest).cons s)

theorem pairwise_sortedInsert (s : String) :
    ∀ l : List String, List.Pairwise (· ≤ ·) l →
      List.Pairwise (· ≤ ·) (sortedInsert s l)
  | [], _ => by unfold sortedInsert; simp
  | t :: rest, hp => by
    unfold sortedInsert
    by_cases h : strLe s t = true
    · rw [if_pos h]
      have hst : s ≤ t := (strLe_iff s t).mp h
      refine List.Pairwise.cons ?_ hp
      intro x hx
      rcases List.mem_cons.mp hx with rfl | hx
      · exact hst
      · exact le_trans hst (List.rel_of_pairwise_cons hp hx)
    · rw [if_neg h]
      have hts : t ≤ s := le_of_not_le (fun hc => h ((strLe_iff s t).mpr hc))
      refine List.Pairwise.cons ?_ (pairwise_sortedInsert s rest hp.of_cons)
      intro x hx
      rcases mem_sortedInsert.mp hx with rfl | hx
      · exact hts
      · exact List.rel_of_pairwise_cons hp hx

theorem pairwise_sortNames : ∀ l : List String, List.Pairwise (· ≤ ·) (sortNames l)
  | [] => by simp [sortNames]
  | s :: rest => by
    unfold sortNames
    exact pairwise_sortedInsert s (sortNames rest) (pairwise_sortNames rest)

/-! ### The grouping loop groups by key, preserving order within groups -/

theorem lookupGrouped_addGrouped : ∀ (acc : List (String × List GRef)) (nm0 : String)
    (r : GRef) (nm : String),
    lookupGrouped (addGrouped nm0 r acc) nm =
      lookupGrouped acc nm ++ (if nm0 = nm then [r] else [])
  | [], nm0, r, nm => by
    by_cases h : nm0 = nm
    · simp [addGrouped, lookupGrouped, h]
    · simp [addGrouped, lookupGrouped, h]
  | (k, rs) :: rest, nm0, r, nm => by
    simp only [addGrouped]
    by_cases hk0 : k = nm0
    · rw [if_pos hk0]
      simp only [lookupGrouped]
      by_cases hknm : k = nm
      · rw [if_pos hknm, if_pos hknm, if_pos (hk0.symm.trans hknm)]
      · rw [if_neg hknm, if_neg hknm, if_neg (fun hc => hknm (hk0.trans hc))]
        simp
    · rw [if_neg hk0]
      simp only [lookupGrouped]
      by_cases hknm : k = nm
      · rw [if_pos hknm, if_pos hknm]
        rw [if_neg (fun hc => hk0 (hknm.trans hc.symm))]
        simp
      · rw [if_neg hknm, if_neg hknm]
        exact lookupGrouped_addGrouped rest nm0 r nm

theorem keys_addGrouped : ∀ (acc : List (String × List GRef)) (nm0 : String) (r : GRef),
    (addGrouped nm0 r acc).map (·.1) =
      if nm0 ∈ acc.map (·.1) then acc.map (·.1) else acc.map (·.1) ++ [nm0]
  | [], nm0, r => by simp [addGrouped]
  | (k, rs) :: rest, nm0, r => by
    simp only [addGrouped]
    by_cases hk0 : k = nm0
    · rw [if_pos hk0]
      simp [hk0]
    · rw [if_neg hk0]
      simp only [List.map_cons]
      rw [keys_addGrouped rest nm0 r]
      by_cases hmem : nm0 ∈ rest.map (·.1)
      · rw [if_pos hmem, if_pos (by simp [hmem])]
      · rw [if_neg hmem, if_neg (by
          simp only [List.mem_cons]
          rintro (rfl | hc)
          · exact hk0 rfl
          · exact hmem hc)]
        simp

theorem keys_nodup_addGrouped {acc : List (String × List GRef)} {nm0 : String} {r : GRef}
    (h : (acc.map (·.1)).Nodup) : ((addGrouped nm0 r acc).map (·.1)).Nodup := by
  rw [keys_addGrouped]
  by_cases hmem : nm0 ∈ acc.map (·.1)
  · rw [if_pos hmem]; exact h
  · rw [if_neg hmem]
    simp only [List.nodup_append, List.nodup_cons, List.not_mem_nil, not_false_iff,
      List.nodup_nil, and_true, true_and]
    constructor
    · exact h
    · intro x hx
      simp only [List.mem_singleton]
      intro hc
      rw [hc] at hx
      exact hmem hx

theorem keys_nodup_foldl : ∀ (refs : List GRef) (acc : List (String × List GRef)),
    (acc.map (·.1)).Nodup →
    (((refs.foldl (fun a r => addGrouped (groupName r.node) r a) acc)).map (·.1)).Nodup
  | [], acc, h => h
  | r :: rest, acc, h =>
    keys_nodup_foldl rest _ (keys_nodup_addGrouped h)

theorem keys_nodup_groupRefs (refs : List GRef) : ((groupRefs refs).map (·.1)).Nodup :=
  keys_nodup_foldl refs [] (by simp)

theorem lookupGrouped_foldl : ∀ (refs : List GRef) (acc : List (String × List GRef))
    (nm : String),
    lookupGrouped (refs.foldl (fun a r => addGrouped (groupName r.node) r a) acc) nm =
      lookupGrouped acc nm ++ refs.filter (fun r => groupName r.node == nm)
  | [], acc, nm => by simp
  | r :: rest, acc, nm => by
    simp only [List.foldl_cons]
    rw [lookupGrouped_foldl rest _ nm, lookupGrouped_addGrouped]
    by_cases h : groupName r.node = nm
    · rw [if_pos h]
      rw [List.filter_cons_of_pos (by simp [h])]
      simp
    · rw [if_neg h]
      rw [List.filter_cons_of_neg (by simp [h])]
      simp

theorem lookupGrouped_groupRefs (refs : List GRef) (nm : String) :
    lookupGrouped (groupRefs refs) nm = refs.filter (fun r => groupName r.node == nm) := by
  unfold groupRefs
  rw [lookupGrouped_foldl]
  simp [lookupGrouped]

theorem groupGlobals_names_sorted_lt (refs : List GRef) :
    List.Pairwise (fun g1 g2 => g1.name < g2.name) (groupGlobals refs) := by
  unfold groupGlobals
  rw [List.pairwise_map]
  have hp : List.Pairwise (· ≤ ·) (sortNames ((groupRefs refs).map (·.1))) :=
    pairwise_sortNames _
  have hnd : (sortNames ((groupRefs refs).map (·.1))).Nodup :=
    (sortNames_perm _).nodup_iff.mpr (keys_nodup_groupRefs refs)
  exact (hp.and hnd).imp (fun h => lt_of_le_of_ne h.1 h.2)

theorem groupGlobals_nodes_eq_filter (refs : List GRef) :
    ∀ g ∈ groupGlobals refs,
      g.nodes = refs.filter (fun r => groupName r.node == g.name) := by
  intro g hg
  unfold groupGlobals at hg
  obtain ⟨nm, _, rfl⟩ := List.mem_map.mp hg
  exact lookupGrouped_groupRefs refs nm

theorem analyzeAst_some {ast : Node} {st : LocalsMap} {res : AnalyzeResult}
    (h : analyzeAst ast st = some res) :
    buildWalk ast [] [] st = some res.locals ∧
    res.refs = (classifyWalk ast [] [] res.locals []).2 ∧
    res.globals = groupGlobals res.refs ∧
    res.writes = (classifyWalk ast [] [] res.locals []).1 := by
  obtain ⟨body, rfl⟩ : ∃ body, ast = .program body := by
    cases ast <;> first | exact ⟨_, rfl⟩ | exact absurd h (by simp [analyzeAst])
  simp only [analyzeAst] at h
  split at h
  · cases h
  · rename_i m hm
    simp only [Option.some.injEq] at h
    subst h
    exact ⟨hm, rfl, rfl, rfl⟩

/-! ### Claim theorems -/

/-- C1, counterexample to the claim as stated.  For the program `x;` the
identifier `x` is recorded as global, but the chain stored on it is NOT a
snapshot of its ancestor chain (root-to-parent, excluding the node
itself, which here is the program node followed by the expression
statement): acorn-walk's ancestor array includes the visited node itself
as its last element, and that array is what line 201 stores. -/
theorem c1_chain_counterexample :
    ¬ ((analyzeAst exIdent []).map (fun res => res.refs.map GRef.parents) =
      some [[([], exIdent), ([0], Node.expressionStatement (Node.identifier "x"))]]) := by
  intro h
  have heval : (analyzeAst exIdent []).map (fun res => res.refs.map GRef.parents) =
      some [[([], exIdent), ([0], Node.expressionStatement (Node.identifier "x")),
        ([0, 0], Node.identifier "x")]] := rfl
  rw [heval] at h
  simp at h

/-- C1 (amended): for an identifier reference named N whose own path
carries no binding (binding tables only ever attach to scope, class and
catch nodes, never to identifier nodes): if N is `undefined` it is never
recorded; otherwise it is recorded iff no ancestor's binding table
contains N and it is not the case that N is `arguments` with some
ancestor being a function declaration or function expression; when
recorded, the node carries a snapshot of the walker's ancestor array,
which is its full ancestor chain *followed by the node itself*. -/
theorem c1_identifier_classification :
    ∀ (path : Path) (name : String) (anc : List (Path × Node)) (locals : LocalsMap),
      (path, name) ∉ locals →
      ((name = "undefined" →
        identifier path name (anc ++ [(path, Node.identifier name)]) locals = none) ∧
      ((∃ r, identifier path name (anc ++ [(path, Node.identifier name)]) locals = some r) ↔
        (name ≠ "undefined" ∧
          (∀ x ∈ anc, (x.1, name) ∉ locals) ∧
          ¬(name = "arguments" ∧ ∃ x ∈ anc, declaresArguments x.2 = true))) ∧
      (∀ r, identifier path name (anc ++ [(path, Node.identifier name)]) locals = some r →
        r.parents = anc ++ [(path, Node.identifier name)] ∧
        r.node = Node.identifier name ∧ r.path = path)) := by
  intro path name anc locals hself
  refine ⟨?_, ?_, ?_⟩
  · intro hu
    unfold identifier
    rw [if_pos hu]
  · constructor
    · rintro ⟨r, hr⟩
      obtain ⟨hu, _, hall⟩ := identifier_eq_some_iff.mp hr
      refine ⟨hu, ?_, ?_⟩
      · intro x hx
        exact (hall x (List.mem_append_left _ hx)).2
      · rintro ⟨harg, x, hx, hd⟩
        exact (hall x (List.mem_append_left _ hx)).1 ⟨harg, hd⟩
    · rintro ⟨hu, hloc, harg⟩
      refine ⟨⟨path, .identifier name, anc ++ [(path, Node.identifier name)]⟩,
        identifier_eq_some_iff.mpr ⟨hu, rfl, ?_⟩⟩
      intro x hx
      rcases List.mem_append.mp hx with hx | hx
      · exact ⟨fun hc => harg ⟨hc.1, x, hx, hc.2⟩, hloc x hx⟩
      · rcases List.mem_singleton.mp hx with rfl
        exact ⟨(fun hc => nomatch hc.2), hself⟩
  · intro r hr
    obtain ⟨_, rfl, _⟩ := identifier_eq_some_iff.mp hr
    exact ⟨rfl, rfl, rfl⟩

/-- C1 witness: the statement instantiated at the reference `x` of the
program `x;`, with no bindings anywhere. -/
theorem c1_identifier_classification_witness :
    ((("x" : String) = "undefined" →
      identifier [0, 0] "x"
        ([([], exIdent), ([0], Node.expressionStatement (Node.identifier "x"))] ++
          [([0, 0], Node.identifier "x")]) [] = none) ∧
    ((∃ r, identifier [0, 0] "x"
        ([([], exIdent), ([0], Node.expressionStatement (Node.identifier "x"))] ++
          [([0, 0], Node.identifier "x")]) [] = some r) ↔
      (("x" : String) ≠ "undefined" ∧
        (∀ x ∈ [([], exIdent), ([0], Node.expressionStatement (Node.identifier "x"))],
          (x.1, "x") ∉ ([] : LocalsMap)) ∧
        ¬(("x" : String) = "arguments" ∧
          ∃ x ∈ [([], exIdent), ([0], Node.expressionStatement (Node.identifier "x"))],
            declaresArguments x.2 = true))) ∧
    (∀ r, identifier [0, 0] "x"
        ([([], exIdent), ([0], Node.expressionStatement (Node.identifier "x"))] ++
          [([0, 0], Node.identifier "x")]) [] = some r →
      r.parents = [([], exIdent), ([0], Node.expressionStatement (Node.identifier "x"))] ++
        [([0, 0], Node.identifier "x")] ∧
      r.node = Node.identifier "x" ∧ r.path = [0, 0])) :=
  c1_identifier_classification [0, 0] "x"
    [([], exIdent), ([0], Node.expressionStatement (Node.identifier "x"))] []
    (by simp)

/-- C2: a successful VariableDeclaration handler run declares exactly the
declarator-pattern names of the declaration into the nearest ancestor
satisfying the kind's scope test (function-like for `var`, any block
scope for `let`/`const`): the target is an ancestor, every ancestor
nearer than it fails the test, the handler adds exactly the pattern names
at the target's path, and a name so declared is classified as bound at
any reference site whose ancestor chain passes through the target
scope. -/
theorem c2_variable_declaration_scoping :
    ∀ (kind : DeclKind) (decls : List Node) (path : Path) (anc : List (Path × Node))
      (st st' : LocalsMap),
      variableDeclarationHandler (Node.variableDeclaration kind decls)
        (anc ++ [(path, Node.variableDeclaration kind decls)]) st = some st' →
      ∃ p a l1 l2,
        anc = l1 ++ (p, a) :: l2 ∧
        scopePredOf kind a = true ∧
        (∀ y ∈ l2, scopePredOf kind y.2 = false) ∧
        (∀ q n, ((q, n) ∈ st' ↔ (q, n) ∈ st ∨ (q = p ∧ n ∈ declNames decls))) ∧
        (∀ (path2 : Path) (n : String) (parents2 : List (Path × Node)),
          n ∈ declNames decls → (∃ x ∈ parents2, x.1 = p) →
          identifier path2 n parents2 st' = none) := by
  intro kind decls path anc st st' h
  simp only [variableDeclarationHandler] at h
  rw [findLastScope_append_last_false
    (by cases kind <;> rfl : scopePredOf kind (Node.variableDeclaration kind decls) = false)] at h
  cases hf : findLastScope (scopePredOf kind) anc with
  | none => rw [hf] at h; cases h
  | some pa =>
    obtain ⟨p, a⟩ := pa
    rw [hf] at h
    obtain ⟨l1, l2, hdec, hpa, hl2⟩ := findLastScope_eq_some_iff.mp hf
    replace h : declareDeclarators decls p st = some st' := h
    have heff := declareDeclarators_mem decls p st st' h
    refine ⟨p, a, l1, l2, hdec, hpa, hl2, heff, ?_⟩
    rintro path2 n parents2 hn ⟨x, hx, hxp⟩
    cases hid : identifier path2 n parents2 st' with
    | none => rfl
    | some r =>
      obtain ⟨_, _, hall⟩ := identifier_eq_some_iff.mp hid
      exact absurd ((heff x.1 n).mpr (Or.inr ⟨hxp, hn⟩)) (hall x hx).2

/-- C2 witness: `var a;` at the top of a program: the program root is
found as the target scope, `a` is declared there, and a reference to `a`
anywhere under the program root is bound. -/
theorem c2_variable_declaration_scoping_witness :
    ∃ p a l1 l2,
      ([(([] : Path), Node.program [Node.variableDeclaration DeclKind.kvar
          [Node.variableDeclarator (Node.identifier "a") Node.hole]])] = l1 ++ (p, a) :: l2) ∧
      scopePredOf DeclKind.kvar a = true ∧
      (∀ y ∈ l2, scopePredOf DeclKind.kvar y.2 = false) ∧
      (∀ q n, ((q, n) ∈ ([(([] : Path), "a")] : LocalsMap) ↔ (q, n) ∈ ([] : LocalsMap) ∨
        (q = p ∧ n ∈ declNames [Node.variableDeclarator (Node.identifier "a") Node.hole]))) ∧
      (∀ (path2 : Path) (n : String) (parents2 : List (Path × Node)),
        n ∈ declNames [Node.variableDeclarator (Node.identifier "a") Node.hole] →
        (∃ x ∈ parents2, x.1 = p) →
        identifier path2 n parents2 [(([] : Path), "a")] = none) :=
  c2_variable_declaration_scoping DeclKind.kvar
    [Node.variableDeclarator (Node.identifier "a") Node.hole] [0]
    [(([] : Path), Node.program [Node.variableDeclaration DeclKind.kvar
      [Node.variableDeclarator (Node.identifier "a") Node.hole]])] [] [([], "a")] (by rfl)

/-- C3: a named function declaration's name lands in the nearest
strictly-enclosing function-like ancestor scope (the handler's search
skips the declaration itself), while its own scope receives its
parameters and its own name; a named class declaration's name lands in
the nearest strictly-enclosing block-scope ancestor, and its own scope
also receives its own name. -/
theorem c3_declaration_name_hoisting :
    (∀ (fname : String) (params : List Node) (fbody : Node) (path : Path)
        (anc : List (Path × Node)) (st st' : LocalsMap),
      functionDeclarationHandler (Node.functionDeclaration (some fname) params fbody) path
        (anc ++ [(path, Node.functionDeclaration (some fname) params fbody)]) st = some st' →
      ∃ p a l1 l2,
        anc = l1 ++ (p, a) :: l2 ∧ isScope a = true ∧ (∀ y ∈ l2, isScope y.2 = false) ∧
        ∀ q n, ((q, n) ∈ st' ↔ (q, n) ∈ st ∨ (q = p ∧ n = fname) ∨
          (q = path ∧ (n ∈ paramsIdents params ∨ n = fname)))) ∧
    (∀ (cname : String) (path : Path) (anc : List (Path × Node)) (st st' : LocalsMap),
      classDeclarationHandler (Node.classDeclaration (some cname)) path
        (anc ++ [(path, Node.classDeclaration (some cname))]) st = some st' →
      ∃ p a l1 l2,
        anc = l1 ++ (p, a) :: l2 ∧ isBlockScope a = true ∧
        (∀ y ∈ l2, isBlockScope y.2 = false) ∧
        ∀ q n, ((q, n) ∈ st' ↔ (q, n) ∈ st ∨ (q = p ∧ n = cname) ∨ (q = path ∧ n = cname))) := by
  constructor
  · intro fname params fbody path anc st st' h
    simp only [functionDeclarationHandler] at h
    rw [List.dropLast_concat] at h
    cases hf : findLastScope isScope anc with
    | none => rw [hf] at h; cases h
    | some pa =>
      obtain ⟨p, a⟩ := pa
      rw [hf] at h
      obtain ⟨l1, l2, hdec, hpa, hl2⟩ := findLastScope_eq_some_iff.mp hf
      replace h : declareFunction (Node.functionDeclaration (some fname) params fbody) path
          (declareName p fname st) = some st' := h
      have heff := declareFunction_mem _ path _ st' h
      refine ⟨p, a, l1, l2, hdec, hpa, hl2, ?_⟩
      intro q n
      rw [heff q n, mem_declareName_iff]
      simp only [fnParams, fnId, Option.some.injEq, Prod.ext_iff]
      constructor
      · rintro ((he | ⟨rfl, rfl⟩) | ⟨rfl, he | he⟩)
        · exact Or.inl he
        · exact Or.inr (Or.inl ⟨rfl, rfl⟩)
        · exact Or.inr (Or.inr ⟨rfl, Or.inl he⟩)
        · exact Or.inr (Or.inr ⟨rfl, Or.inr he.symm⟩)
      · rintro (he | ⟨rfl, rfl⟩ | ⟨rfl, he | rfl⟩)
        · exact Or.inl (Or.inl he)
        · exact Or.inl (Or.inr ⟨rfl, rfl⟩)
        · exact Or.inr ⟨rfl, Or.inl he⟩
        · exact Or.inr ⟨rfl, Or.inr rfl⟩
  · intro cname path anc st st' h
    simp only [classDeclarationHandler] at h
    rw [List.dropLast_concat] at h
    cases hf : findLastScope isBlockScope anc with
    | none => rw [hf] at h; cases h
    | some pa =>
      obtain ⟨p, a⟩ := pa
      rw [hf] at h
      obtain ⟨l1, l2, hdec, hpa, hl2⟩ := findLastScope_eq_some_iff.mp hf
      replace h : some (declareClass (Node.classDeclaration (some cname)) path
          (declareName p cname st)) = some st' := h
      simp only [Option.some.injEq] at h
      subst h
      refine ⟨p, a, l1, l2, hdec, hpa, hl2, ?_⟩
      intro q n
      rw [declareClass_mem, mem_declareName_iff]
      simp only [classId, Option.some.injEq, Prod.ext_iff]
      constructor
      · rintro ((he | ⟨rfl, rfl⟩) | ⟨rfl, rfl⟩)
        · exact Or.inl he
        · exact Or.inr (Or.inl ⟨rfl, rfl⟩)
        · exact Or.inr (Or.inr ⟨rfl, rfl⟩)
      · rintro (he | ⟨rfl, rfl⟩ | ⟨rfl, rfl⟩)
        · exact Or.inl (Or.inl he)
        · exact Or.inl (Or.inr ⟨rfl, rfl⟩)
        · exact Or.inr ⟨rfl, rfl⟩

/-- C3 witness: `function f(x) {}` and `class C` directly under the
program root. -/
theorem c3_declaration_name_hoisting_witness :
    (∃ p a l1 l2,
      ([(([] : Path), Node.program [Node.functionDeclaration (some "f")
          [Node.identifier "x"] (Node.blockStatement [])])] = l1 ++ (p, a) :: l2) ∧
      isScope a = true ∧ (∀ y ∈ l2, isScope y.2 = false) ∧
      ∀ q n, ((q, n) ∈ ([([0], "f"), ([0], "x"), ([], "f")] : LocalsMap) ↔
        (q, n) ∈ ([] : LocalsMap) ∨ (q = p ∧ n = "f") ∨
        (q = [0] ∧ (n ∈ paramsIdents [Node.identifier "x"] ∨ n = "f")))) ∧
    (∃ p a l1 l2,
      ([(([] : Path), Node.program [Node.classDeclaration (some "C")])] = l1 ++ (p, a) :: l2) ∧
      isBlockScope a = true ∧ (∀ y ∈ l2, isBlockScope y.2 = false) ∧
      ∀ q n, ((q, n) ∈ ([([0], "C"), ([], "C")] : LocalsMap) ↔
        (q, n) ∈ ([] : LocalsMap) ∨ (q = p ∧ n = "C") ∨ (q = [0] ∧ n = "C"))) :=
  ⟨c3_declaration_name_hoisting.1 "f" [Node.identifier "x"] (Node.blockStatement []) [0]
    [(([] : Path), Node.program [Node.functionDeclaration (some "f")
      [Node.identifier "x"] (Node.blockStatement [])])] [] [([0], "f"), ([0], "x"), ([], "f")]
    (by rfl),
  c3_declaration_name_hoisting.2 "C" [0]
    [(([] : Path), Node.program [Node.classDeclaration (some "C")])] [] [([0], "C"), ([], "C")]
    (by rfl)⟩

/-- C4: a `this` expression is recorded as global iff no ancestor is a
function declaration or function expression (arrow functions and the
program root bind nothing), and every recorded `this` occurrence is
grouped in the output under the reserved name "this". -/
theorem c4_this_classification :
    (∀ (path : Path) (anc : List (Path × Node)),
      ((∃ r, thisExpressionHandler path (anc ++ [(path, Node.thisExpression)]) = some r) ↔
        ∀ x ∈ anc, declaresThis x.2 = false) ∧
      (∀ r, thisExpressionHandler path (anc ++ [(path, Node.thisExpression)]) = some r →
        r.parents = anc ++ [(path, Node.thisExpression)] ∧
        r.node = Node.thisExpression ∧ r.path = path)) ∧
    (∀ (refs : List GRef) (g : Group), g ∈ groupGlobals refs →
      ∀ r ∈ g.nodes, r.node = Node.thisExpression → g.name = "this") := by
  constructor
  · intro path anc
    constructor
    · constructor
      · rintro ⟨r, hr⟩
        obtain ⟨_, hall⟩ := thisExpressionHandler_eq_some_iff.mp hr
        exact fun x hx => hall x (List.mem_append_left _ hx)
      · intro hall
        refine ⟨⟨path, .thisExpression, anc ++ [(path, Node.thisExpression)]⟩,
          thisExpressionHandler_eq_some_iff.mpr ⟨rfl, ?_⟩⟩
        intro x hx
        rcases List.mem_append.mp hx with hx | hx
        · exact hall x hx
        · rcases List.mem_singleton.mp hx with rfl
          rfl
    · intro r hr
      obtain ⟨rfl, _⟩ := thisExpressionHandler_eq_some_iff.mp hr
      exact ⟨rfl, rfl, rfl⟩
  · intro refs g hg r hr hthis
    have hnodes := groupGlobals_nodes_eq_filter refs g hg
    rw [hnodes] at hr
    have := List.of_mem_filter hr
    rw [hthis] at this
    have heq : groupName Node.thisExpression = g.name := by
      exact beq_iff_eq.mp this
    rw [← heq]
    rfl

/-- C4 witness: the statement instantiated at a top-level `this` (program
`this;`) and at the singleton globals list holding that occurrence. -/
theorem c4_this_classification_witness :
    (((∃ r, thisExpressionHandler [0, 0]
        ([(([] : Path), Node.program [Node.expressionStatement Node.thisExpression]),
          ([0], Node.expressionStatement Node.thisExpression)] ++
          [([0, 0], Node.thisExpression)]) = some r) ↔
      ∀ x ∈ [(([] : Path), Node.program [Node.expressionStatement Node.thisExpression]),
          ([0], Node.expressionStatement Node.thisExpression)], declaresThis x.2 = false) ∧
    (∀ r, thisExpressionHandler [0, 0]
        ([(([] : Path), Node.program [Node.expressionStatement Node.thisExpression]),
          ([0], Node.expressionStatement Node.thisExpression)] ++
          [([0, 0], Node.thisExpression)]) = some r →
      r.parents = [(([] : Path), Node.program [Node.expressionStatement Node.thisExpression]),
          ([0], Node.expressionStatement Node.thisExpression)] ++
          [([0, 0], Node.thisExpression)] ∧
      r.node = Node.thisExpression ∧ r.path = [0, 0])) ∧
    (∀ g ∈ groupGlobals [⟨[0, 0], Node.thisExpression, []⟩],
      ∀ r ∈ g.nodes, r.node = Node.thisExpression → g.name = "this") :=
  ⟨c4_this_classification.1 [0, 0]
    [(([] : Path), Node.program [Node.expressionStatement Node.thisExpression]),
      ([0], Node.expressionStatement Node.thisExpression)],
  fun g hg => c4_this_classification.2 [⟨[0, 0], Node.thisExpression, []⟩] g hg⟩

/-- C5: the handler behaviour around catch clauses.  A try statement with
no handler declares nothing and succeeds; a catch clause with a bound
parameter has exactly the parameter-pattern names declared into the catch
clause's own table (child 1 of the try).  But for a catch clause with NO
bound parameter the source passes `node.handler.param` — null — straight
into declarePattern, which faults reading `.type`, so the whole analysis
of `try {} catch {}` errors out instead of succeeding: the code
contradicts the claim on that input. -/
theorem c5_catch_binding :
    (analyzeAst exCatchAll [] = none) ∧
    (∀ (blk fin : Node) (path : Path) (st : LocalsMap),
      tryStatementHandler (Node.tryStatement blk Node.hole fin) path st = some st) ∧
    (∀ (blk fin param cbody : Node) (path : Path) (st st' : LocalsMap),
      tryStatementHandler (Node.tryStatement blk (Node.catchClause param cbody) fin) path st
        = some st' →
      ∀ q n, ((q, n) ∈ st' ↔ (q, n) ∈ st ∨ (q = path ++ [1] ∧ n ∈ patIdents param))) := by
  refine ⟨rfl, fun blk fin path st => rfl, ?_⟩
  intro blk fin param cbody path st st' h
  exact declarePattern_mem param (path ++ [1]) st st' h

/-- C5 witness: `try {} catch (e) {}` declares exactly `e` into the catch
clause's table. -/
theorem c5_catch_binding_witness :
    ∀ q n, ((q, n) ∈ ([([0, 1], "e")] : LocalsMap) ↔ (q, n) ∈ ([] : LocalsMap) ∨
      (q = [0] ++ [1] ∧ n ∈ patIdents (Node.identifier "e"))) :=
  c5_catch_binding.2.2 (Node.blockStatement []) Node.hole (Node.identifier "e")
    (Node.blockStatement []) [0] [] [([0, 1], "e")] (by rfl)

/-- C6: the returned Global Groups are sorted by name in strictly
ascending lexicographic order, and each group's reference list is the
discovery-ordered sublist of recorded references bearing that name. -/
theorem c6_output_ordering :
    ∀ (ast : Node) (st : LocalsMap) (res : AnalyzeResult),
      analyzeAst ast st = some res →
      List.Chain' (fun g1 g2 => g1.name < g2.name) res.globals ∧
      ∀ g ∈ res.globals,
        g.nodes = res.refs.filter (fun r => groupName r.node == g.name) := by
  intro ast st res h
  obtain ⟨_, _, hglob, _⟩ := analyzeAst_some h
  rw [hglob]
  exact ⟨(groupGlobals_names_sorted_lt res.refs).chain',
    groupGlobals_nodes_eq_filter res.refs⟩

/-- C6 witness: the program `b; a; b;` — groups come out as `a` before
`b`, each holding its references in source order. -/
theorem c6_output_ordering_witness :
    List.Chain' (fun g1 g2 => g1.name < g2.name)
      ((analyzeAst exSort []).getD emptyResult).globals ∧
    ∀ g ∈ ((analyzeAst exSort []).getD emptyResult).globals,
      g.nodes = ((analyzeAst exSort []).getD emptyResult).refs.filter
        (fun r => groupName r.node == g.name) :=
  c6_output_ordering exSort [] _ (by rfl)

/-- C7: when the strict parse of a source string fails with a message,
disabling the fallback propagates that error unchanged, while enabling it
returns the error-tolerant parser's AST together with the original
error's message. -/
theorem c7_parse_fallback :
    ∀ (strictParse : String → Except String Node) (looseParse : String → Node)
      (source msg : String),
      strictParse source = .error msg →
      reallyParse strictParse looseParse source false = .error msg ∧
      reallyParse strictParse looseParse source true =
        .ok (looseParse source, some msg) := by
  intro sp lp source msg h
  constructor
  · unfold reallyParse
    rw [h]
    rfl
  · unfold reallyParse
    rw [h]
    rfl

/-- C7 witness: a strict parser that always fails with message "boom". -/
theorem c7_parse_fallback_witness :
    reallyParse (fun _ => Except.error "boom") (fun _ => Node.program []) "x(" false =
        Except.error "boom" ∧
    reallyParse (fun _ => Except.error "boom") (fun _ => Node.program []) "x(" true =
        Except.ok (Node.program [], some "boom") :=
  c7_parse_fallback _ _ "x(" "boom" rfl

/-- C8, counterexample to the claim as stated.  For the program `x;` the
classification pass is not mutation-free: it assigns the `parents` field
of the recorded identifier node (src/index.js line 201), so the write
table of the run is nonempty. -/
theorem c8_no_mutation_counterexample :
    ¬ ((analyzeAst exIdent []).map (fun res => res.writes) = some []) := by
  intro h
  have heval : (analyzeAst exIdent []).map (fun res => res.writes) =
      some [([0, 0], [([], exIdent), ([0], Node.expressionStatement (Node.identifier "x")),
        ([0, 0], Node.identifier "x")])] := rfl
  rw [heval] at h
  simp at h

/-- C8 (amended): the build pass attaches the binding tables; the
classification pass reads them (they are an immutable input of
`classifyWalk`) and its only mutations are the `parents` assignments on
exactly the recorded global reference nodes, in discovery order: the
final write table is the initial one with those assignments applied. -/
theorem c8_classification_writes :
    (∀ (node : Node) (path : Path) (parents : List (Path × Node)) (locals : LocalsMap)
      (w : Writes),
      (classifyWalk node path parents locals w).1 =
        (classifyWalk node path parents locals w).2.foldl
          (fun a r => setAssoc r.path r.parents a) w) ∧
    (∀ (ast : Node) (st : LocalsMap) (res : AnalyzeResult), analyzeAst ast st = some res →
      res.writes = res.refs.foldl (fun a r => setAssoc r.path r.parents a) []) := by
  constructor
  · exact classifyWalk_writes
  · intro ast st res h
    obtain ⟨_, hrefs, _, hw⟩ := analyzeAst_some h
    rw [hw, hrefs]
    exact classifyWalk_writes ast [] [] res.locals []

/-- C8 witness: the analyzeAst clause instantiated at the program `x;`. -/
theorem c8_classification_writes_witness :
    ((analyzeAst exIdent []).getD emptyResult).writes =
      ((analyzeAst exIdent []).getD emptyResult).refs.foldl
        (fun a r => setAssoc r.path r.parents a) [] :=
  c8_classification_writes.2 exIdent [] _ (by rfl)

/-- C9: analyzing an AST a second time — starting from the binding tables
the first run attached — produces the identical result: same tables, same
recorded references, same Global Groups in the same order, same writes. -/
theorem c9_analysis_idempotent :
    ∀ (ast : Node) (res : AnalyzeResult),
      analyzeAst ast [] = some res → analyzeAst ast res.locals = some res := by
  intro ast res h
  obtain ⟨body, rfl⟩ : ∃ body, ast = .program body := by
    cases ast <;> first | exact ⟨_, rfl⟩ | exact absurd h (by simp [analyzeAst])
  obtain ⟨hb, hrefs, hglob, hw⟩ := analyzeAst_some h
  have hfix := (buildWalk_fix _ _ _ _ _ hb).2 res.locals (fun e he => he)
  simp only [analyzeAst]
  rw [hfix]
  show some (⟨res.locals, (classifyWalk (Node.program body) [] [] res.locals []).2,
      groupGlobals (classifyWalk (Node.program body) [] [] res.locals []).2,
      (classifyWalk (Node.program body) [] [] res.locals []).1⟩ : AnalyzeResult) = some res
  rw [← hrefs, ← hw, ← hglob]

/-- C9 witness: re-running the analysis of `b; a; b;` on its own output
tables reproduces the result. -/
theorem c9_analysis_idempotent_witness :
    analyzeAst exSort ((analyzeAst exSort []).getD emptyResult).locals =
      some ((analyzeAst exSort []).getD emptyResult) :=
  c9_analysis_idempotent exSort _ (by rfl)

/-- C10: a function declaration with no name (id absent) is handled
without error — given an enclosing function-like scope and well-formed
parameter patterns — and declares nothing into the enclosing scope: the
handler adds exactly the parameter names, at the declaration's own path;
an anonymous class declaration likewise succeeds and declares nothing at
all. -/
theorem c10_anonymous_declarations :
    (∀ (params : List Node) (fbody : Node) (path : Path) (anc : List (Path × Node))
      (st : LocalsMap),
      (∃ x ∈ anc, isScope x.2 = true) →
      (∀ q ∈ params, wfPattern q = true) →
      ∃ st', functionDeclarationHandler (Node.functionDeclaration none params fbody) path
          (anc ++ [(path, Node.functionDeclaration none params fbody)]) st = some st' ∧
        ∀ q n, ((q, n) ∈ st' ↔ (q, n) ∈ st ∨ (q = path ∧ n ∈ paramsIdents params))) ∧
    (∀ (path : Path) (anc : List (Path × Node)) (st : LocalsMap),
      (∃ x ∈ anc, isBlockScope x.2 = true) →
      classDeclarationHandler (Node.classDeclaration none) path
        (anc ++ [(path, Node.classDeclaration none)]) st = some st) := by
  constructor
  · intro params fbody path anc st hsc hwf
    obtain ⟨pa, hf⟩ := Option.isSome_iff_exists.mp (findLastScope_isSome_iff.mpr hsc)
    obtain ⟨p, a⟩ := pa
    obtain ⟨st1, h1⟩ := declareParams_isSome_of_wf params path st hwf
    have hdf : declareFunction (Node.functionDeclaration none params fbody) path st
        = some st1 := by
      simp only [declareFunction]
      rw [h1]
    refine ⟨st1, ?_, ?_⟩
    · simp only [functionDeclarationHandler]
      rw [List.dropLast_concat, hf]
      exact hdf
    · intro q n
      rw [declareFunction_mem _ path st st1 hdf q n]
      simp [fnParams, fnId]
  · intro path anc st hsc
    obtain ⟨pa, hf⟩ := Option.isSome_iff_exists.mp (findLastScope_isSome_iff.mpr hsc)
    obtain ⟨p, a⟩ := pa
    simp only [classDeclarationHandler]
    rw [List.dropLast_concat, hf]
    rfl

/-- C10 witness: an anonymous function with one parameter `y` and an
anonymous class, each directly under an empty program root. -/
theorem c10_anonymous_declarations_witness :
    (∃ st', functionDeclarationHandler (Node.functionDeclaration none [Node.identifier "y"]
        (Node.blockStatement [])) [0]
        ([(([] : Path), Node.program [])] ++
          [([0], Node.functionDeclaration none [Node.identifier "y"] (Node.blockStatement []))])
        [] = some st' ∧
      ∀ q n, ((q, n) ∈ st' ↔ (q, n) ∈ ([] : LocalsMap) ∨
        (q = [0] ∧ n ∈ paramsIdents [Node.identifier "y"]))) ∧
    classDeclarationHandler (Node.classDeclaration none) [0]
      ([(([] : Path), Node.program [])] ++ [([0], Node.classDeclaration none)]) [] = some [] :=
  ⟨c10_anonymous_declarations.1 [Node.identifier "y"] (Node.blockStatement []) [0]
    [([], Node.program [])] []
    ⟨([], Node.program []), List.mem_singleton.mpr rfl, rfl⟩
    (by intro q hq; rw [List.mem_singleton] at hq; subst hq; rfl),
  c10_anonymous_declarations.2 [0] [([], Node.program [])] []
    ⟨([], Node.program []), List.mem_singleton.mpr rfl, rfl⟩⟩

end AcornGlobals
